import Mathlib

/-!
The node codec and the response envelope of telegraph-go.

A shallow embedding of `type.go` and `method.go` of kallydev/telegraph-go,
together with the part of Go's `encoding/json` that these files rely on
(`json.Marshal` of `[]Node`, `json.Unmarshal` into the response structs).

Conventions of the embedding:

* a Go `string` is a Lean `String`, so only texts that are valid UTF-8 are
  covered;
* a Go `int` is an `Int`; where a JSON number is stored into an `int` the
  64-bit range is checked explicitly;
* a `float64` produced by the decoder is kept as the number literal it was
  read from;
* a Go map is an association list sorted by key, one entry per key;
* a nil and an empty `Attrs` or `Children` of a `NodeElement` are the same empty
  list (the encoder omits both); the content slice passed to `CreatePage` and
  `EditPage` is an `Option`, `none` being the nil slice;
* the HTTP transport is a function from the API method name and the form
  values to the body that comes back;
* `encoding/json` is taken as in the Go releases of the repository's time: the
  encoder escapes with HTML escaping on and writes U+0008 and U+000C as
  `\u0008` and `\u000c`; the scanner rejects documents nested deeper than 10000;
* the decoder reports the first type error it meets; the methods discard the
  partly filled struct in that case, so decoding stops there.
-/

namespace Telegraph

/-! ## Interchange values (JSON) -/

/-- A JSON number literal `-? int (. frac)? (e exp)?`.  `frac` holds the digits
after the decimal point (`[]` when there is none), `exp` the exponent. -/
structure JNumber where
  neg : Bool
  int : Nat
  frac : List Nat
  exp : Option Int
deriving DecidableEq, Repr

/-- A JSON value.  Object members keep the order of the document. -/
inductive JSON where
  | null
  | bool (b : Bool)
  | num (n : JNumber)
  | str (s : String)
  | arr (xs : List JSON)
  | obj (ms : List (String × JSON))
deriving Repr

/-! ## Go values and types, as `encoding/json` sees them through reflection -/

/-- The Go types that occur in the response structs of `method.go` and `type.go`.
A struct is given by its JSON field names and field types, in declaration order;
`ptr fs` is a pointer to the struct with fields `fs`. -/
inductive GoType where
  | string
  | int
  | bool
  | iface
  | slice (elem : GoType)
  | struct (fields : List (String × GoType))
  | ptr (fields : List (String × GoType))
deriving Repr

/-- Go values.  `nil` is the nil pointer, nil slice, nil map and nil interface. -/
inductive GoValue where
  | nil
  | bool (b : Bool)
  | int (n : Int)
  | float64 (lit : JNumber)
  | str (s : String)
  | slice (xs : List GoValue)
  | map (kvs : List (String × GoValue))
  | struct (fields : List GoValue)
  | ptr (v : GoValue)
deriving Repr

/-- Go errors that the API methods can return. -/
inductive GoError where
  | transport (msg : String)
  | syntaxError
  | unmarshalTypeError
  | errorString (msg : String)
deriving DecidableEq, Repr

/-! ## Strings: ordering, case folding, escaping -/

/-- Go's `<` on strings (bytewise, which on valid UTF-8 is the order of the
code points). -/
def lexLt : List Char → List Char → Bool
  | _, [] => false
  | [], _ :: _ => true
  | a :: as, b :: bs => decide (a.toNat < b.toNat) || (a == b && lexLt as bs)

/-- Ordering of map keys used by the encoder (`sort.Slice` on the key strings). -/
def keyLt (a b : String) : Bool := lexLt a.data b.data

/-- Insert or replace `k ↦ v` in a map kept sorted by key (`m[k] = v`). -/
def mapInsert {α : Type} (k : String) (v : α) : List (String × α) → List (String × α)
  | [] => [(k, v)]
  | (k', v') :: m =>
    if keyLt k k' then (k, v) :: (k', v') :: m
    else if k = k' then (k, v) :: m
    else (k', v') :: mapInsert k v m

/-- The map built by assigning the entries one after the other. -/
def mapOfList {α : Type} (kvs : List (String × α)) : List (String × α) :=
  kvs.foldl (fun m kv => mapInsert kv.1 kv.2 m) []

/-- The constant `hex = "0123456789abcdef"` of `encoding/json`. -/
def hex (n : Nat) : Char := "0123456789abcdef".data.getD n '0'

/-- The characters that `encodeState.string` copies unchanged when HTML escaping
is on (the default of `json.Marshal`): everything except the control characters,
the double quote, the backslash, `<`, `>`, `&`, U+2028 and U+2029. -/
def htmlSafe (c : Char) : Bool :=
  !(decide (c.toNat < 0x20) || c == '"' || c == '\\' || c == '<' || c == '>' || c == '&'
    || decide (c.toNat = 0x2028) || decide (c.toNat = 0x2029))

/-- How `encodeState.string` writes one character of a string. -/
def escapeChar (c : Char) : List Char :=
  if htmlSafe c then [c]
  else if c == '\\' || c == '"' then ['\\', c]
  else if c == '\n' then ['\\', 'n']
  else if c == '\r' then ['\\', 'r']
  else if c == '\t' then ['\\', 't']
  else if c.toNat < 0x80 then ['\\', 'u', '0', '0', hex (c.toNat / 16), hex (c.toNat % 16)]
  else ['\\', 'u', '2', '0', '2', hex (c.toNat % 16)]

/-- A JSON string literal: the quoted, escaped text. -/
def quote (s : String) : List Char :=
  '"' :: (s.data.flatMap escapeChar ++ ['"'])

/-! ## Rendering interchange values as text -/

/-- Decimal digits of a natural number, most significant first. -/
def natDigits (n : Nat) : List Char := (Nat.repr n).data

/-- The text of a number literal. -/
def JNumber.render (n : JNumber) : List Char :=
  (if n.neg then ['-'] else []) ++ natDigits n.int
    ++ (if n.frac = [] then [] else '.' :: n.frac.flatMap natDigits)
    ++ (match n.exp with
        | none => []
        | some e => 'e' :: ((if e < 0 then ['-'] else []) ++ natDigits e.natAbs))

mutual
/-- Compact JSON text of a value, as the encoder writes it. -/
def JSON.render : JSON → List Char
  | .null => "null".data
  | .bool true => "true".data
  | .bool false => "false".data
  | .num n => n.render
  | .str s => quote s
  | .arr xs => '[' :: (JSON.renderElems xs ++ [']'])
  | .obj ms => '{' :: (JSON.renderMembers ms ++ ['}'])
/-- Array elements separated by commas. -/
def JSON.renderElems : List JSON → List Char
  | [] => []
  | [x] => JSON.render x
  | x :: y :: xs => JSON.render x ++ ',' :: JSON.renderElems (y :: xs)
/-- Object members `"key":value` separated by commas. -/
def JSON.renderMembers : List (String × JSON) → List Char
  | [] => []
  | [(k, v)] => quote k ++ ':' :: JSON.render v
  | (k, v) :: m :: ms => quote k ++ ':' :: JSON.render v ++ ',' :: JSON.renderMembers (m :: ms)
end

/-! ## The content model (`type.go`) -/

/-- A content node as callers build it (`type Node interface{}` holding a Go
string or a `NodeElement`).  `element tag attrs children` is
`NodeElement{Tag, Attrs, Children}`; a nil and an empty `Attrs` or `Children`
are both the empty list. -/
inductive Node where
  | text (s : String)
  | element (Tag : String) (Attrs : List (String × String)) (Children : List Node)
deriving Repr

mutual
/-- The JSON value `json.Marshal` writes for a node: a string for a text, and for
a `NodeElement` an object with `tag`, then `attrs` unless empty (`omitempty`),
then `children` unless empty (`omitempty`).  Map keys are written sorted. -/
def Node.encode : Node → JSON
  | .text s => .str s
  | .element tag attrs children =>
    .obj (("tag", .str tag)
      :: ((if attrs = [] then []
           else [("attrs", .obj ((mapOfList attrs).map (fun kv => (kv.1, JSON.str kv.2))))])
        ++ (match children with
            | [] => []
            | c :: cs => [("children", .arr (Node.encode c :: Node.encodeList cs))])))
/-- The encodings of a sequence of nodes, in order. -/
def Node.encodeList : List Node → List JSON
  | [] => []
  | n :: ns => Node.encode n :: Node.encodeList ns
end

/-- The value of `json.Marshal(&content)` for `content []Node`: `none` is the nil
slice, which the slice encoder writes as `null`. -/
def encodeNodes : Option (List Node) → JSON
  | none => .null
  | some ns => .arr (Node.encodeList ns)

/-- The text `string(contentData)` that `CreatePage` and `EditPage` send. -/
def Marshal (content : Option (List Node)) : String :=
  String.mk (encodeNodes content).render

/-! ## Decoding (`json.Unmarshal`) -/

/-- The digits after the decimal point read as a number. -/
def digitsValue (ds : List Nat) : Nat := ds.foldl (fun acc d => acc * 10 + d) 0

/-- The integer a literal denotes for `strconv.ParseInt(s, 10, 64)`: defined only
when the literal has neither fraction nor exponent and fits in 64 bits. -/
def JNumber.toInt64 (n : JNumber) : Option Int :=
  if n.frac = [] ∧ n.exp = none then
    let v : Int := if n.neg then -(n.int : Int) else (n.int : Int)
    if -(2 : Int) ^ 63 ≤ v ∧ v < (2 : Int) ^ 63 then some v else none
  else none

/-- The least magnitude that rounds to infinity as a float64, `2^1024 - 2^970`,
half a unit in the last place above the largest finite float64. -/
def float64Bound : Nat :=
  179769313486231580793728971405303415079934132710037826936173778980444968292764750946649017977587207096330286416692887910946555547851940402630657488671505820681908902000708383676273854845817711531764475730270069855571366959622842914819860834936475292719074168444365510704342711559699508093042880177904174497792

/-- Whether `strconv.ParseFloat(s, 64)` accepts the literal: its value, the
mantissa `int.frac` times ten to the exponent, must round to a finite float64,
that is, lie below `float64Bound`. -/
def JNumber.float64InRange (n : JNumber) : Bool :=
  let mant : Nat := n.int * 10 ^ n.frac.length + digitsValue n.frac
  let e : Int := n.exp.getD 0 - n.frac.length
  if 0 ≤ e then decide (mant * 10 ^ e.toNat < float64Bound)
  else decide (mant < float64Bound * 10 ^ (-e).toNat)

mutual
/-- Decoding into an empty interface (`valueInterface`): `nil`, `bool`,
`float64`, `string`, `[]interface{}` or `map[string]interface{}`. -/
def JSON.toIface : JSON → Except GoError GoValue
  | .null => .ok .nil
  | .bool b => .ok (.bool b)
  | .num n => if n.float64InRange then .ok (.float64 n) else .error .unmarshalTypeError
  | .str s => .ok (.str s)
  | .arr xs =>
    match JSON.toIfaceList xs with
    | .error e => .error e
    | .ok vs => .ok (.slice vs)
  | .obj ms =>
    match JSON.toIfaceMembers ms with
    | .error e => .error e
    | .ok kvs => .ok (.map (mapOfList kvs))
/-- The elements of `arrayInterface`, in order. -/
def JSON.toIfaceList : List JSON → Except GoError (List GoValue)
  | [] => .ok []
  | x :: xs =>
    match JSON.toIface x with
    | .error e => .error e
    | .ok v =>
      match JSON.toIfaceList xs with
      | .error e => .error e
      | .ok vs => .ok (v :: vs)
/-- The entries of `objectInterface`, in document order. -/
def JSON.toIfaceMembers : List (String × JSON) → Except GoError (List (String × GoValue))
  | [] => .ok []
  | (k, x) :: ms =>
    match JSON.toIface x with
    | .error e => .error e
    | .ok v =>
      match JSON.toIfaceMembers ms with
      | .error e => .error e
      | .ok kvs => .ok ((k, v) :: kvs)
end

mutual
/-- The zero value of a type. -/
def GoType.zero : GoType → GoValue
  | .string => .str ""
  | .int => .int 0
  | .bool => .bool false
  | .iface => .nil
  | .slice _ => .nil
  | .struct fs => .struct (GoType.zeroFields fs)
  | .ptr _ => .nil
/-- The zero values of the fields of a struct. -/
def GoType.zeroFields : List (String × GoType) → List GoValue
  | [] => []
  | (_, t) :: fs => GoType.zero t :: GoType.zeroFields fs
end

/-- Case folding of one character of a key, enough to compare with the ASCII
field names of this package: letters go to upper case, and so do the Kelvin sign
and the long s, the two non-ASCII characters that fold to an ASCII letter. -/
def foldRune (c : Char) : Char :=
  if 'a'.toNat ≤ c.toNat ∧ c.toNat ≤ 'z'.toNat then Char.ofNat (c.toNat - 32)
  else if c.toNat = 0x212A then 'K'
  else if c.toNat = 0x17F then 'S'
  else c

/-- The folded form of a name. -/
def foldName (s : String) : List Char := s.data.map foldRune

/-- The first field whose name satisfies `p`: its index and its type. -/
def findFieldBy (p : String → Bool) : List (String × GoType) → Option (Nat × GoType)
  | [] => none
  | f :: fs =>
    if p f.1 then some (0, f.2)
    else
      match findFieldBy p fs with
      | some r => some (r.1 + 1, r.2)
      | none => none

/-- The struct field a JSON key is stored into: the field with exactly that
name, otherwise the first field whose name matches case-insensitively. -/
def findField (fs : List (String × GoType)) (key : String) : Option (Nat × GoType) :=
  match findFieldBy (fun name => name == key) fs with
  | some r => some r
  | none => findFieldBy (fun name => foldName name == foldName key) fs

/-- The elements of a slice value (none for the nil slice). -/
def GoValue.elems : GoValue → List GoValue
  | .slice xs => xs
  | _ => []

/-- The field values of a struct value. -/
def GoValue.fieldValues : GoValue → List GoValue
  | .struct vs => vs
  | _ => []

mutual
/-- Decoding of a JSON value into a Go value of type `t` that currently holds
`cur` (`decodeState.value`).  A value of the wrong kind is an
`UnmarshalTypeError`; `null` clears interfaces, pointers and slices and leaves
everything else as it is. -/
def decodeValue : GoType → GoValue → JSON → Except GoError GoValue
  | .iface, _, j => JSON.toIface j
  | .string, cur, j =>
    match j with
    | .str s => .ok (.str s)
    | .null => .ok cur
    | _ => .error .unmarshalTypeError
  | .int, cur, j =>
    match j with
    | .num n =>
      match n.toInt64 with
      | some v => .ok (.int v)
      | none => .error .unmarshalTypeError
    | .null => .ok cur
    | _ => .error .unmarshalTypeError
  | .bool, cur, j =>
    match j with
    | .bool b => .ok (.bool b)
    | .null => .ok cur
    | _ => .error .unmarshalTypeError
  | .slice e, cur, j =>
    match j with
    | .arr xs =>
      match decodeElems e cur.elems xs with
      | .error err => .error err
      | .ok vs => .ok (.slice vs)
    | .null => .ok .nil
    | _ => .error .unmarshalTypeError
  | .struct fs, cur, j =>
    match j with
    | .obj ms =>
      match decodeMembers fs cur.fieldValues ms with
      | .error err => .error err
      | .ok vs => .ok (.struct vs)
    | .null => .ok cur
    | _ => .error .unmarshalTypeError
  | .ptr fs, cur, j =>
    match j with
    | .obj ms =>
      match decodeMembers fs
          (match cur with
           | .ptr v => v.fieldValues
           | _ => GoType.zeroFields fs) ms with
      | .error err => .error err
      | .ok vs => .ok (.ptr (.struct vs))
    | .null => .ok .nil
    | _ => .error .unmarshalTypeError
/-- Decoding of the elements of an array into a slice whose current elements are
`cur`: element `i` is decoded into the existing element `i`, or into a zero value
past the current length. -/
def decodeElems (e : GoType) : List GoValue → List JSON → Except GoError (List GoValue)
  | _, [] => .ok []
  | cur, x :: xs =>
    match decodeValue e (cur.headD (GoType.zero e)) x with
    | .error err => .error err
    | .ok v =>
      match decodeElems e cur.tail xs with
      | .error err => .error err
      | .ok vs => .ok (v :: vs)
/-- Decoding of the members of an object into the fields of a struct: each member
whose key names a field is decoded into that field, in document order; members
with other keys are skipped. -/
def decodeMembers (fs : List (String × GoType)) :
    List GoValue → List (String × JSON) → Except GoError (List GoValue)
  | cur, [] => .ok cur
  | cur, (k, x) :: ms =>
    match findField fs k with
    | none => decodeMembers fs cur ms
    | some (i, t) =>
      match decodeValue t (cur.getD i .nil) x with
      | .error err => .error err
      | .ok v => decodeMembers fs (cur.set i v) ms
end

/-! ## Reading JSON text (the scanner of `encoding/json`) -/

/-- Insignificant white space between tokens. -/
def isSpace (c : Char) : Bool := c == ' ' || c == '\t' || c == '\r' || c == '\n'

/-- Drop leading white space. -/
def skipSpace : List Char → List Char
  | [] => []
  | c :: cs => if isSpace c then skipSpace cs else c :: cs

/-- Value of a hexadecimal digit. -/
def hexVal (c : Char) : Option Nat :=
  if '0'.toNat ≤ c.toNat ∧ c.toNat ≤ '9'.toNat then some (c.toNat - '0'.toNat)
  else if 'a'.toNat ≤ c.toNat ∧ c.toNat ≤ 'f'.toNat then some (c.toNat - 'a'.toNat + 10)
  else if 'A'.toNat ≤ c.toNat ∧ c.toNat ≤ 'F'.toNat then some (c.toNat - 'A'.toNat + 10)
  else none

/-- The code unit written as four hexadecimal digits after `\u` (`getu4`). -/
def getu4 (a b c d : Char) : Option Nat :=
  match hexVal a, hexVal b, hexVal c, hexVal d with
  | some x, some y, some z, some w => some (((x * 16 + y) * 16 + z) * 16 + w)
  | _, _, _, _ => none

/-- The character of a one-letter escape. -/
def unescape (c : Char) : Option Char :=
  if c == '"' then some '"'
  else if c == '\\' then some '\\'
  else if c == '/' then some '/'
  else if c == 'b' then some (Char.ofNat 8)
  else if c == 'f' then some (Char.ofNat 12)
  else if c == 'n' then some '\n'
  else if c == 'r' then some '\r'
  else if c == 't' then some '\t'
  else none

/-- The replacement character U+FFFD. -/
def replacementChar : Char := Char.ofNat 0xFFFD

/-- A pending first half of a surrogate pair that found no second half is
written as U+FFFD. -/
def flushSurrogate (pending : Option Nat) (r : List Char × List Char) : List Char × List Char :=
  match pending with
  | some _ => (replacementChar :: r.1, r.2)
  | none => r

/-- The rest of a string literal after its opening quote: the text it denotes
and the input after the closing quote (`unquote`).  `pending` is the first half
of a surrogate pair read just before; a surrogate escape that is not part of a
valid pair becomes U+FFFD. -/
def scanString : Option Nat → List Char → Option (List Char × List Char)
  | _, [] => none
  | pending, c :: rest =>
    if c == '"' then some (flushSurrogate pending ([], rest))
    else if c == '\\' then
      match rest with
      | [] => none
      | e :: rest1 =>
        if e == 'u' then
          match rest1 with
          | h1 :: h2 :: h3 :: h4 :: rest2 =>
            match getu4 h1 h2 h3 h4 with
            | none => none
            | some u =>
              if 0xDC00 ≤ u ∧ u < 0xE000 then
                match pending with
                | some hi =>
                  (scanString none rest2).map (fun r =>
                    (Char.ofNat ((hi - 0xD800) * 1024 + (u - 0xDC00) + 0x10000) :: r.1, r.2))
                | none => (scanString none rest2).map (fun r => (replacementChar :: r.1, r.2))
              else if 0xD800 ≤ u ∧ u < 0xDC00 then
                (scanString (some u) rest2).map (flushSurrogate pending)
              else
                (scanString none rest2).map (fun r => flushSurrogate pending (Char.ofNat u :: r.1, r.2))
          | _ => none
        else
          match unescape e with
          | none => none
          | some x => (scanString none rest1).map (fun r => flushSurrogate pending (x :: r.1, r.2))
    else if c.toNat < 0x20 then none
    else (scanString none rest).map (fun r => flushSurrogate pending (c :: r.1, r.2))

/-- Value of a decimal digit. -/
def digitVal (c : Char) : Option Nat :=
  if '0'.toNat ≤ c.toNat ∧ c.toNat ≤ '9'.toNat then some (c.toNat - '0'.toNat) else none

/-- The leading decimal digits of the input and what follows them. -/
def scanDigits : List Char → List Nat × List Char
  | [] => ([], [])
  | c :: cs =>
    match digitVal c with
    | some d => ((scanDigits cs).1.cons d, (scanDigits cs).2)
    | none => ([], c :: cs)

/-- The exponent part `[eE][+-]?digits`, if the input starts with one. -/
def scanExp : List Char → Option (Option Int × List Char)
  | [] => some (none, [])
  | c :: cs =>
    if c == 'e' || c == 'E' then
      let signed : Bool × List Char :=
        match cs with
        | '-' :: r => (true, r)
        | '+' :: r => (false, r)
        | r => (false, r)
      match scanDigits signed.2 with
      | ([], _) => none
      | (ds, rest) =>
        some (some (if signed.1 then -(digitsValue ds : Int) else (digitsValue ds : Int)), rest)
    else some (none, c :: cs)

/-- The fraction part `.digits`, if the input starts with one. -/
def scanFrac : List Char → Option (List Nat × List Char)
  | '.' :: cs =>
    match scanDigits cs with
    | ([], _) => none
    | (ds, rest) => some (ds, rest)
  | cs => some ([], cs)

/-- The integer part: a single `0`, or a nonzero digit followed by digits. -/
def scanInt : List Char → Option (Nat × List Char)
  | [] => none
  | c :: cs =>
    if c == '0' then some (0, cs)
    else
      match scanDigits (c :: cs) with
      | ([], _) => none
      | (ds, rest) => some (digitsValue ds, rest)

/-- A number literal at the head of the input. -/
def scanNumber (cs : List Char) : Option (JNumber × List Char) :=
  let signed : Bool × List Char :=
    match cs with
    | '-' :: r => (true, r)
    | r => (false, r)
  match scanInt signed.2 with
  | none => none
  | some (i, r1) =>
    match scanFrac r1 with
    | none => none
    | some (f, r2) =>
      match scanExp r2 with
      | none => none
      | some (e, r3) => some (⟨signed.1, i, f, e⟩, r3)

/-- The scanner rejects a document nested deeper than this. -/
def maxNestingDepth : Nat := 10000

/-- The input after the given literal text, if the input starts with it. -/
def dropLiteral : List Char → List Char → Option (List Char)
  | [], cs => some cs
  | _ :: _, [] => none
  | l :: ls, c :: cs => if l == c then dropLiteral ls cs else none

mutual
/-- One JSON value at the head of the input, inside `depth` enclosing arrays and
objects; `fuel` bounds the number of values still read. -/
def parseValue : Nat → Nat → List Char → Option (JSON × List Char)
  | 0, _, _ => none
  | _ + 1, _, [] => none
  | fuel + 1, depth, c :: rest =>
    if c == '{' then
      if maxNestingDepth ≤ depth then none
      else
        match skipSpace rest with
        | [] => none
        | c' :: r =>
          if c' == '}' then some (.obj [], r)
          else
            match parseMembers fuel (depth + 1) (c' :: r) with
            | none => none
            | some (ms, r') => some (.obj ms, r')
    else if c == '[' then
      if maxNestingDepth ≤ depth then none
      else
        match skipSpace rest with
        | [] => none
        | c' :: r =>
          if c' == ']' then some (.arr [], r)
          else
            match parseElems fuel (depth + 1) (c' :: r) with
            | none => none
            | some (xs, r') => some (.arr xs, r')
    else if c == '"' then
      match scanString none rest with
      | none => none
      | some (s, r) => some (.str (String.mk s), r)
    else if c == 't' then
      match dropLiteral ['r', 'u', 'e'] rest with
      | none => none
      | some r => some (.bool true, r)
    else if c == 'f' then
      match dropLiteral ['a', 'l', 's', 'e'] rest with
      | none => none
      | some r => some (.bool false, r)
    else if c == 'n' then
      match dropLiteral ['u', 'l', 'l'] rest with
      | none => none
      | some r => some (.null, r)
    else
      match scanNumber (c :: rest) with
      | none => none
      | some (n, r) => some (.num n, r)
/-- The elements of an array up to and including its closing bracket. -/
def parseElems : Nat → Nat → List Char → Option (List JSON × List Char)
  | 0, _, _ => none
  | fuel + 1, depth, cs =>
    match parseValue fuel depth cs with
    | none => none
    | some (x, r) =>
      match skipSpace r with
      | [] => none
      | c :: r' =>
        if c == ']' then some ([x], r')
        else if c == ',' then
          match parseElems fuel depth (skipSpace r') with
          | none => none
          | some (xs, r'') => some (x :: xs, r'')
        else none
/-- The members of an object up to and including its closing brace. -/
def parseMembers : Nat → Nat → List Char → Option (List (String × JSON) × List Char)
  | 0, _, _ => none
  | _ + 1, _, [] => none
  | fuel + 1, depth, q :: rest =>
    if q == '"' then
      match scanString none rest with
      | none => none
      | some (k, r) =>
        match skipSpace r with
        | [] => none
        | c :: r1 =>
          if c == ':' then
            match parseValue fuel depth (skipSpace r1) with
            | none => none
            | some (x, r2) =>
              match skipSpace r2 with
              | [] => none
              | c' :: r3 =>
                if c' == '}' then some ([(String.mk k, x)], r3)
                else if c' == ',' then
                  match parseMembers fuel depth (skipSpace r3) with
                  | none => none
                  | some (ms, r4) => some ((String.mk k, x) :: ms, r4)
                else none
          else none
    else none
end

/-- The value of a whole document, or `none` where `checkValid` reports a
syntax error. -/
def parseJSON (data : String) : Option JSON :=
  match parseValue (data.data.length + 1) 0 (skipSpace data.data) with
  | none => none
  | some (j, rest) => if skipSpace rest = [] then some j else none

/-- Go's `json.Unmarshal(data, &v)` for `v` of type `t` holding `cur`: a syntax
error if the text is not valid JSON, otherwise the decoded value or a type error. -/
def Unmarshal (data : String) (t : GoType) (cur : GoValue) : Except GoError GoValue :=
  match parseJSON data with
  | none => .error .syntaxError
  | some j => decodeValue t cur j

/-! ## Payload and response types (`type.go`, `method.go`) -/

/-- The struct `Account`: JSON names and types of its fields `ShortName`,
`AuthorName`, `AuthorURL`, `AccessToken`, `AuthURL`, `PageCount`. -/
def Account : List (String × GoType) :=
  [("short_name", .string), ("author_name", .string), ("author_url", .string),
   ("access_token", .string), ("auth_url", .string), ("page_count", .int)]

/-- The struct `Page`: `Path`, `URL`, `Title`, `Description`, `AuthorName`,
`AuthorURL`, `ImageURL`, `Content []Node`, `Views`, `CanEdit`. -/
def Page : List (String × GoType) :=
  [("path", .string), ("url", .string), ("title", .string), ("description", .string),
   ("author_name", .string), ("author_url", .string), ("image_url", .string),
   ("content", .slice .iface), ("views", .int), ("can_edit", .bool)]

/-- The struct `PageList`: `TotalCount` and `Pages []Page`. -/
def PageList : List (String × GoType) :=
  [("total_count", .int), ("pages", .slice (.struct Page))]

/-- The struct `PageViews`: `Views`. -/
def PageViews : List (String × GoType) :=
  [("views", .int)]

/-- The response structs `responseAccount`, `responsePage`, `responsePageList`
and `responsePageViews`: the embedded `response` with `OK` and `Error`, followed
by `Result`, a pointer to the payload struct. -/
def response (result : List (String × GoType)) : List (String × GoType) :=
  [("ok", .bool), ("error", .string), ("result", .ptr result)]

/-- The struct `responseAccount`. -/
def responseAccount : List (String × GoType) := response Account

/-- The struct `responsePage`. -/
def responsePage : List (String × GoType) := response Page

/-- The struct `responsePageList`. -/
def responsePageList : List (String × GoType) := response PageList

/-- The struct `responsePageViews`. -/
def responsePageViews : List (String × GoType) := response PageViews

/-- The boolean held by a value (`false` for anything else). -/
def GoValue.asBool : GoValue → Bool
  | .bool b => b
  | _ => false

/-- The string held by a value (empty for anything else). -/
def GoValue.asString : GoValue → String
  | .str s => s
  | _ => ""

/-! ## Requests (`client.go`, `method.go`) -/

/-- Form values (`url.Values`), in the order they were added. -/
abbrev Values := List (String × String)

/-- Go's `Values.Add`. -/
def Values.Add (v : Values) (key value : String) : Values := v ++ [(key, value)]

/-- Go's `Values.Get`: the first value of the key, or the empty string. -/
def Values.Get (v : Values) (key : String) : String :=
  match v.find? (fun kv => kv.1 == key) with
  | some kv => kv.2
  | none => ""

/-- Go's `Values.Has`: whether the key was added. -/
def Values.Has (v : Values) (key : String) : Bool := v.any (fun kv => kv.1 == key)

/-- Go's `strconv.Itoa`. -/
def Itoa (n : Int) : String :=
  if n < 0 then "-" ++ Nat.repr n.natAbs else Nat.repr n.toNat

/-- Go's `strconv.FormatBool`. -/
def FormatBool (b : Bool) : String := if b then "true" else "false"

def methodCreateAccount : String := "createAccount"
def methodEditAccountInfo : String := "editAccountInfo"
def methodGetAccountInfo : String := "getAccountInfo"
def methodRevokeAccessToken : String := "revokeAccessToken"
def methodCreatePage : String := "createPage"
def methodEditPage : String := "editPage"
def methodGetPage : String := "getPage"
def methodGetPageList : String := "getPageList"
def methodGetViews : String := "getViews"

def FieldShortName : String := "short_name"
def FieldAuthorName : String := "author_name"
def FieldAuthorURL : String := "author_url"
def FieldAuthURL : String := "auth_url"
def FieldPageCount : String := "page_count"

/-- The client: its access token and its HTTP client, given by the body (or the
error) that comes back for an API method name and form values. -/
structure Client where
  AccessToken : String
  httpClient : String → Values → Except GoError String

/-- The method `Client.post`. -/
def Client.post (client : Client) (method : String) (parm : Values) : Except GoError String :=
  client.httpClient method parm

/-- The lines every API method runs on the outcome of `client.post`: return the
transport error; unmarshal the body into a fresh response struct and return the
decoder's error; if `OK` is false return `errors.New(Error)`; otherwise return
`Result`.  The first component is the payload pointer, the second the error. -/
def unwrap (result : List (String × GoType)) (httpResponse : Except GoError String) :
    GoValue × Option GoError :=
  match httpResponse with
  | .error err => (.nil, some err)
  | .ok data =>
    match Unmarshal data (.struct (response result)) (GoType.zero (.struct (response result))) with
    | .error err => (.nil, some err)
    | .ok model =>
      if !(model.fieldValues.getD 0 .nil).asBool then
        (.nil, some (.errorString (model.fieldValues.getD 1 .nil).asString))
      else (model.fieldValues.getD 2 .nil, none)

structure CreateAccountOption where
  AuthorName : String
  AuthorURL : String

/-- Form values of `CreateAccount`. -/
def CreateAccountParams (shortName : String) (option : Option CreateAccountOption) : Values :=
  let params : Values := []
  let params := params.Add "short_name" shortName
  match option with
  | none => params
  | some o =>
    let params := if 0 < o.AuthorName.length then params.Add "author_name" o.AuthorName else params
    let params := if 0 < o.AuthorURL.length then params.Add "author_url" o.AuthorURL else params
    params

/-- The method `CreateAccount`. -/
def Client.CreateAccount (client : Client) (shortName : String)
    (option : Option CreateAccountOption) : GoValue × Option GoError :=
  unwrap Account (client.post methodCreateAccount (CreateAccountParams shortName option))

structure CreatePageOption where
  AuthorName : String
  AuthorURL : String
  ReturnContent : Bool

/-- Form values of `CreatePage`.  `json.Marshal(&content)` cannot fail on
content built from strings and `NodeElement` values. -/
def CreatePageParams (client : Client) (title : String) (content : Option (List Node))
    (option : Option CreatePageOption) : Values :=
  let params : Values := []
  let params := params.Add "access_token" client.AccessToken
  let params := params.Add "title" title
  let contentData := Marshal content
  let params := params.Add "content" contentData
  match option with
  | none => params
  | some o =>
    let params := if 0 < o.AuthorName.length then params.Add "author_name" o.AuthorName else params
    let params := if 0 < o.AuthorURL.length then params.Add "author_url" o.AuthorURL else params
    let params :=
      if o.ReturnContent then params.Add "return_content" (FormatBool o.ReturnContent) else params
    params

/-- The method `CreatePage`. -/
def Client.CreatePage (client : Client) (title : String) (content : Option (List Node))
    (option : Option CreatePageOption) : GoValue × Option GoError :=
  unwrap Page (client.post methodCreatePage (CreatePageParams client title content option))

structure EditAccountInfoOption where
  ShortName : String
  AuthorName : String
  AuthorURL : String

/-- Form values of `EditAccountInfo`. -/
def EditAccountInfoParams (client : Client) (option : Option EditAccountInfoOption) : Values :=
  let params : Values := []
  let params := params.Add "access_token" client.AccessToken
  match option with
  | none => params
  | some o =>
    let params := if 0 < o.ShortName.length then params.Add "short_name" o.ShortName else params
    let params := if 0 < o.AuthorName.length then params.Add "author_name" o.AuthorName else params
    let params := if 0 < o.AuthorURL.length then params.Add "author_url" o.AuthorURL else params
    params

/-- The method `EditAccountInfo`. -/
def Client.EditAccountInfo (client : Client) (option : Option EditAccountInfoOption) :
    GoValue × Option GoError :=
  unwrap Account (client.post methodEditAccountInfo (EditAccountInfoParams client option))

structure EditPageOption where
  AuthorName : String
  AuthorURL : String
  ReturnContent : Bool

/-- Form values of `EditPage`. -/
def EditPageParams (client : Client) (path title : String) (content : Option (List Node))
    (option : Option EditPageOption) : Values :=
  let params : Values := []
  let params := params.Add "access_token" client.AccessToken
  let params := params.Add "path" path
  let params := params.Add "title" title
  let contentData := Marshal content
  let params := params.Add "content" contentData
  match option with
  | none => params
  | some o =>
    let params := if 0 < o.AuthorName.length then params.Add "author_name" o.AuthorName else params
    let params := if 0 < o.AuthorURL.length then params.Add "author_url" o.AuthorURL else params
    let params :=
      if o.ReturnContent then params.Add "return_content" (FormatBool o.ReturnContent) else params
    params

/-- The method `EditPage`. -/
def Client.EditPage (client : Client) (path title : String) (content : Option (List Node))
    (option : Option EditPageOption) : GoValue × Option GoError :=
  unwrap Page (client.post methodEditPage (EditPageParams client path title content option))

structure GetAccountInfoOption where
  Fields : List String

/-- The loop of `GetAccountInfo` over `option.Fields`, from index `i` on, with
`n = len(option.Fields)` and `builder` the text written so far. -/
def writeFields (n : Nat) : Nat → List String → String → String
  | _, [], builder => builder
  | i, value :: rest, builder =>
    let builder := if i = 0 then builder ++ String.mk ['[', '"'] else builder
    let builder := builder ++ value
    let builder :=
      if i = n - 1 then builder ++ String.mk ['"', ']']
      else builder ++ String.mk ['"', ',', '"']
    writeFields n (i + 1) rest builder

/-- The value of the `fields` parameter: the default three names replace an
empty list, then the loop writes the list. -/
def fieldsParam (fields : List String) : String :=
  let fields :=
    if fields.length = 0 then [FieldShortName, FieldAuthorName, FieldAuthorURL] else fields
  writeFields fields.length 0 fields ""

/-- Form values of `GetAccountInfo`. -/
def GetAccountInfoParams (client : Client) (option : Option GetAccountInfoOption) : Values :=
  let params : Values := []
  let params := params.Add "access_token" client.AccessToken
  match option with
  | none => params
  | some o => params.Add "fields" (fieldsParam o.Fields)

/-- The method `GetAccountInfo`. -/
def Client.GetAccountInfo (client : Client) (option : Option GetAccountInfoOption) :
    GoValue × Option GoError :=
  unwrap Account (client.post methodGetAccountInfo (GetAccountInfoParams client option))

structure GetPageOption where
  ReturnContent : Bool

/-- Form values of `GetPage`. -/
def GetPageParams (path : String) (option : Option GetPageOption) : Values :=
  let params : Values := []
  let params := params.Add "path" path
  match option with
  | none => params
  | some o =>
    if o.ReturnContent then params.Add "return_content" (FormatBool o.ReturnContent) else params

/-- The method `GetPage`. -/
def Client.GetPage (client : Client) (path : String) (option : Option GetPageOption) :
    GoValue × Option GoError :=
  unwrap Page (client.post methodGetPage (GetPageParams path option))

structure GetPageListOption where
  Offset : Int
  Limit : Int

/-- Form values of `GetPageList`. -/
def GetPageListParams (client : Client) (option : Option GetPageListOption) : Values :=
  let params : Values := []
  let params := params.Add "access_token" client.AccessToken
  match option with
  | none => params
  | some o =>
    let params := if o.Offset > 1 then params.Add "offset" (Itoa o.Offset) else params
    let params := if o.Limit > 1 then params.Add "limit" (Itoa o.Limit) else params
    params

/-- The method `GetPageList`. -/
def Client.GetPageList (client : Client) (option : Option GetPageListOption) :
    GoValue × Option GoError :=
  unwrap PageList (client.post methodGetPageList (GetPageListParams client option))

structure GetViewsOption where
  Hour : Int

/-- Form values of `GetViews`. -/
def GetViewsParams (path : String) (year month day : Int) (option : Option GetViewsOption) :
    Values :=
  let params : Values := []
  let params := params.Add "path" path
  let params := params.Add "year" (Itoa year)
  let params := params.Add "month" (Itoa month)
  let params := params.Add "day" (Itoa day)
  match option with
  | none => params
  | some o => if o.Hour > 1 then params.Add "hour" (Itoa o.Hour) else params

/-- The method `GetViews`. -/
def Client.GetViews (client : Client) (path : String) (year month day : Int)
    (option : Option GetViewsOption) : GoValue × Option GoError :=
  unwrap PageViews (client.post methodGetViews (GetViewsParams path year month day option))

/-- Form values of `RevokeAccessToken`. -/
def RevokeAccessTokenParams (client : Client) : Values :=
  let params : Values := []
  params.Add "access_token" client.AccessToken

/-- The method `RevokeAccessToken`. -/
def Client.RevokeAccessToken (client : Client) : GoValue × Option GoError :=
  unwrap Account (client.post methodRevokeAccessToken (RevokeAccessTokenParams client))

/-- A call of one of the nine API methods that decode an envelope, with its
arguments. -/
inductive Call where
  | CreateAccount (shortName : String) (option : Option CreateAccountOption)
  | EditAccountInfo (option : Option EditAccountInfoOption)
  | GetAccountInfo (option : Option GetAccountInfoOption)
  | RevokeAccessToken
  | CreatePage (title : String) (content : Option (List Node)) (option : Option CreatePageOption)
  | EditPage (path title : String) (content : Option (List Node)) (option : Option EditPageOption)
  | GetPage (path : String) (option : Option GetPageOption)
  | GetPageList (option : Option GetPageListOption)
  | GetViews (path : String) (year month day : Int) (option : Option GetViewsOption)

/-- The payload struct a call returns a pointer to. -/
def Call.result : Call → List (String × GoType)
  | .CreateAccount _ _ => Account
  | .EditAccountInfo _ => Account
  | .GetAccountInfo _ => Account
  | .RevokeAccessToken => Account
  | .CreatePage _ _ _ => Page
  | .EditPage _ _ _ _ => Page
  | .GetPage _ _ => Page
  | .GetPageList _ => PageList
  | .GetViews _ _ _ _ _ => PageViews

/-- What a call returns: the payload pointer and the error. -/
def Client.call (client : Client) : Call → GoValue × Option GoError
  | .CreateAccount shortName option => client.CreateAccount shortName option
  | .EditAccountInfo option => client.EditAccountInfo option
  | .GetAccountInfo option => client.GetAccountInfo option
  | .RevokeAccessToken => client.RevokeAccessToken
  | .CreatePage title content option => client.CreatePage title content option
  | .EditPage path title content option => client.EditPage path title content option
  | .GetPage path option => client.GetPage path option
  | .GetPageList option => client.GetPageList option
  | .GetViews path year month day option => client.GetViews path year month day option

/-! ## Envelopes as JSON documents -/

/-- The member of an object that the decoder stores into the field `name`: the
first member whose key is `name`, exactly or up to letter case. -/
def member (ms : List (String × JSON)) (name : String) : Option JSON :=
  match ms.find? (fun m => foldName m.1 == foldName name) with
  | some m => some m.2
  | none => none

/-- No two members of the object have the same name, even up to letter case. -/
def uniqueKeys (ms : List (String × JSON)) : Bool :=
  decide ((ms.map (fun m => foldName m.1)).Nodup)

/-- Whether a decoding succeeded. -/
def isOk {ε α : Type} : Except ε α → Bool
  | .ok _ => true
  | .error _ => false

/-- An object has the shape of the payload struct `fs`: its member names are
unique and every member that names a field holds a value of the field's type,
one the decoder accepts for that field. -/
def payloadShape (fs : List (String × GoType)) (r : List (String × JSON)) : Bool :=
  uniqueKeys r &&
    fs.all (fun f =>
      match member r f.1 with
      | none => true
      | some j => isOk (decodeValue f.2 (GoType.zero f.2) j))

/-- The `error` and `result` members of an envelope are as in
`{ "ok": bool, "error"?: string, "result"?: payload }`: member names are unique,
`error` is absent or a string, `result` is absent or an object of the payload's
shape. -/
def envelopeRest (result : List (String × GoType)) (ms : List (String × JSON)) : Bool :=
  uniqueKeys ms &&
    (match member ms "error" with
     | none => true
     | some (.str _) => true
     | some _ => false) &&
    (match member ms "result" with
     | none => true
     | some (.obj r) => payloadShape result r
     | some _ => false)

/-- A valid envelope for the payload struct `result`: a boolean `ok` member and
the other members as in `envelopeRest`. -/
def validEnvelope (result : List (String × GoType)) (ms : List (String × JSON)) : Bool :=
  (match member ms "ok" with
   | some (.bool _) => true
   | _ => false) &&
    envelopeRest result ms

/-- Following the spec's words: the general JSON encoding of a list of names as an
array of strings (`json.Marshal` of a non-nil `[]string`). -/
def marshalStrings (fs : List String) : String :=
  String.mk (JSON.arr (fs.map JSON.str)).render

/-- What follows the opening `["` in a list written with `item` for each name. -/
def listTail (item : String → List Char) : List String → List Char
  | [] => []
  | [v] => item v ++ ['"', ']']
  | v :: w :: rest => item v ++ ['"', ',', '"'] ++ listTail item (w :: rest)

/-- The success flag an envelope carries (`false` when it has none). -/
def envelopeOK (ms : List (String × JSON)) : Bool :=
  match member ms "ok" with
  | some (.bool b) => b
  | _ => false

/-- The error message an envelope carries (empty when it has none). -/
def envelopeError (ms : List (String × JSON)) : String :=
  match member ms "error" with
  | some (.str m) => m
  | _ => ""

/-! ## Content nodes as Go values -/

mutual
/-- The Go value a caller's content node is: a string, or the struct
`NodeElement` with its three fields `Tag`, `Attrs`, `Children` (empty `Attrs` and
`Children` are nil). -/
def Node.toGoValue : Node → GoValue
  | .text s => .str s
  | .element tag attrs children =>
    .struct [.str tag,
      (if attrs = [] then .nil
       else .map ((mapOfList attrs).map (fun kv => (kv.1, GoValue.str kv.2)))),
      (match children with
       | [] => .nil
       | c :: cs => .slice (Node.toGoValue c :: Node.toGoValueList cs))]
/-- The Go values of a sequence of nodes, in order. -/
def Node.toGoValueList : List Node → List GoValue
  | [] => []
  | n :: ns => Node.toGoValue n :: Node.toGoValueList ns
end

mutual
/-- What a content node comes back as from the decoder: a text as the same
string, a `NodeElement` as a `map[string]interface{}` with the key `tag`, the key
`attrs` (a map of strings) when it has attributes and the key `children` (a
`[]interface{}`) when it has children. -/
def Node.generic : Node → GoValue
  | .text s => .str s
  | .element tag attrs children =>
    .map ((if attrs = [] then []
           else [("attrs", .map ((mapOfList attrs).map (fun kv => (kv.1, GoValue.str kv.2))))])
      ++ ((match children with
           | [] => []
           | c :: cs => [("children", .slice (Node.generic c :: Node.genericList cs))])
        ++ [("tag", .str tag)]))
/-- The decoded forms of a sequence of nodes, in order. -/
def Node.genericList : List Node → List GoValue
  | [] => []
  | n :: ns => Node.generic n :: Node.genericList ns
end

mutual
/-- Every number literal in the value is in the range of `float64`. -/
def JSON.numbersInRange : JSON → Bool
  | .num n => n.float64InRange
  | .arr xs => JSON.numbersInRangeList xs
  | .obj ms => JSON.numbersInRangeMembers ms
  | _ => true
/-- Every number literal in the values is in the range of `float64`. -/
def JSON.numbersInRangeList : List JSON → Bool
  | [] => true
  | x :: xs => JSON.numbersInRange x && JSON.numbersInRangeList xs
/-- Every number literal in the member values is in the range of `float64`. -/
def JSON.numbersInRangeMembers : List (String × JSON) → Bool
  | [] => true
  | (_, x) :: ms => JSON.numbersInRange x && JSON.numbersInRangeMembers ms
end

mutual
/-- How many arrays and objects are nested inside one another in a value. -/
def JSON.nesting : JSON → Nat
  | .arr xs => JSON.nestingList xs + 1
  | .obj ms => JSON.nestingMembers ms + 1
  | _ => 0
/-- The deepest nesting among the values. -/
def JSON.nestingList : List JSON → Nat
  | [] => 0
  | x :: xs => max (JSON.nesting x) (JSON.nestingList xs)
/-- The deepest nesting among the member values. -/
def JSON.nestingMembers : List (String × JSON) → Nat
  | [] => 0
  | (_, x) :: ms => max (JSON.nesting x) (JSON.nestingMembers ms)
end

mutual
/-- The number of values in a value, itself included. -/
def JSON.count : JSON → Nat
  | .arr xs => JSON.countList xs + 1
  | .obj ms => JSON.countMembers ms + 1
  | _ => 1
/-- The number of values in a list of values, plus one for every element. -/
def JSON.countList : List JSON → Nat
  | [] => 0
  | x :: xs => JSON.count x + JSON.countList xs + 1
/-- The number of values in the members, plus one for every member. -/
def JSON.countMembers : List (String × JSON) → Nat
  | [] => 0
  | (_, x) :: ms => JSON.count x + JSON.countMembers ms + 1
end

mutual
/-- The value holds no number. -/
def JSON.noNumbers : JSON → Bool
  | .num _ => false
  | .arr xs => JSON.noNumbersList xs
  | .obj ms => JSON.noNumbersMembers ms
  | _ => true
/-- The values hold no number. -/
def JSON.noNumbersList : List JSON → Bool
  | [] => true
  | x :: xs => JSON.noNumbers x && JSON.noNumbersList xs
/-- The member values hold no number. -/
def JSON.noNumbersMembers : List (String × JSON) → Bool
  | [] => true
  | (_, x) :: ms => JSON.noNumbers x && JSON.noNumbersMembers ms
end

/-- The kind of Go value a JSON value at a node position is decoded to. -/
def decodedKind (j : JSON) (v : GoValue) : Prop :=
  match j with
  | .null => v = .nil
  | .bool b => v = .bool b
  | .num n => v = .float64 n
  | .str s => v = .str s
  | .arr xs => ∃ vs, v = .slice vs ∧ vs.length = xs.length
  | .obj _ => ∃ kvs, v = .map kvs

/-- A list of map entries is strictly increasing in its keys. -/
def keysSorted {α : Type} (m : List (String × α)) : Prop :=
  m.Pairwise (fun a b => keyLt a.1 b.1 = true)

/-! ## Encoding -/

theorem encodeList_eq_map (ns : List Node) : Node.encodeList ns = ns.map Node.encode := by
  induction ns with
  | nil => rfl
  | cons n ns ih => simp [Node.encodeList, ih]

/-- C7: the encoding of a `NodeElement` is an object whose keys are, in this order,
`tag` (always), `attrs` exactly when it has an attribute, `children` exactly when
it has a child; `tag` holds the tag, `children` the encodings of the children in
order, a text is encoded as a bare string; an element without attributes and
children is encoded as the object with the single key `tag`; and
`[NodeElement{Tag:"p", Children:["hello world"]}]` is marshalled to
`[{"tag":"p","children":["hello world"]}]`. -/
theorem encode_shape (tag : String) (attrs : List (String × String)) (children : List Node) :
    (∃ ms, (Node.element tag attrs children).encode = .obj ms
      ∧ ms.map Prod.fst
          = "tag" :: ((if attrs.isEmpty then [] else ["attrs"])
              ++ (if children.isEmpty then [] else ["children"]))
      ∧ ms.lookup "tag" = some (.str tag)
      ∧ (attrs ≠ [] → ms.lookup "attrs"
          = some (.obj ((mapOfList attrs).map (fun kv => (kv.1, JSON.str kv.2)))))
      ∧ (children ≠ [] → ms.lookup "children" = some (.arr (children.map Node.encode))))
    ∧ (∀ s, (Node.text s).encode = .str s)
    ∧ (Node.element tag [] []).encode = .obj [("tag", .str tag)]
    ∧ Marshal (some [Node.element "p" [] [Node.text "hello world"]])
        = "[\x7b\"tag\":\"p\",\"children\":[\"hello world\"]\x7d]" := by
  refine ⟨?_, ?_, ?_, ?_⟩
  · cases children with
    | nil =>
      cases attrs with
      | nil => exact ⟨_, rfl, by simp, by simp [List.lookup], by simp, by simp⟩
      | cons a as =>
        exact ⟨_, rfl, by simp, by simp [List.lookup], by simp [List.lookup], by simp⟩
    | cons c cs =>
      cases attrs with
      | nil =>
        refine ⟨_, rfl, by simp, by simp [List.lookup], by simp, ?_⟩
        intro _
        simp [List.lookup, encodeList_eq_map]
      | cons a as =>
        refine ⟨_, rfl, by simp, by simp [List.lookup], by simp [List.lookup], ?_⟩
        intro _
        simp [List.lookup, encodeList_eq_map]
  · intro s; rfl
  · rfl
  · rfl

/-! ## Request parameters -/

theorem Values.get_append (v w : Values) (k : String) (h : v.Has k = true) :
    Values.Get (v ++ w) k = Values.Get v k := by
  induction v with
  | nil => simp [Values.Has] at h
  | cons kv v ih =>
    by_cases hk : (kv.1 == k) = true
    · simp [Values.Get, List.find?, hk]
    · simp only [Bool.not_eq_true] at hk
      have h' : Values.Has v k = true := by
        simpa [Values.Has, hk] using h
      have := ih h'
      simpa [Values.Get, List.find?, hk] using this

theorem Values.has_append (v w : Values) (k : String) :
    Values.Has (v ++ w) k = (Values.Has v k || Values.Has w k) := by
  simp [Values.Has]

theorem CreatePageParams_eq (client : Client) (title : String) (content : Option (List Node))
    (o : Option CreatePageOption) :
    ∃ extra, CreatePageParams client title content o
      = [("access_token", client.AccessToken), ("title", title), ("content", Marshal content)]
        ++ extra := by
  cases o with
  | none => exact ⟨[], by simp [CreatePageParams, Values.Add]⟩
  | some o =>
    simp only [CreatePageParams, Values.Add]
    split_ifs <;> exact ⟨_, by simp only [List.nil_append, List.cons_append, List.append_assoc]; rfl⟩

theorem EditPageParams_eq (client : Client) (path title : String) (content : Option (List Node))
    (o : Option EditPageOption) :
    ∃ extra, EditPageParams client path title content o
      = [("access_token", client.AccessToken), ("path", path), ("title", title),
         ("content", Marshal content)] ++ extra := by
  cases o with
  | none => exact ⟨[], by simp [EditPageParams, Values.Add]⟩
  | some o =>
    simp only [EditPageParams, Values.Add]
    split_ifs <;> exact ⟨_, by simp only [List.nil_append, List.cons_append, List.append_assoc]; rfl⟩

theorem CreatePageParams_content (client : Client) (title : String) (content : Option (List Node))
    (o : Option CreatePageOption) :
    (CreatePageParams client title content o).Get "content" = Marshal content := by
  obtain ⟨extra, h⟩ := CreatePageParams_eq client title content o
  rw [h, Values.get_append _ _ _ (by simp [Values.Has])]
  simp [Values.Get, List.find?]

theorem EditPageParams_content (client : Client) (path title : String)
    (content : Option (List Node)) (o : Option EditPageOption) :
    (EditPageParams client path title content o).Get "content" = Marshal content := by
  obtain ⟨extra, h⟩ := EditPageParams_eq client path title content o
  rw [h, Values.get_append _ _ _ (by simp [Values.Has])]
  simp [Values.Get, List.find?]

/-- C8, amended: in `CreatePage` and `EditPage` an allocated content slice of length
0 gives the `content` parameter `[]`, and a nil content slice gives `null`. -/
theorem empty_content_param (client : Client) (path title : String)
    (o1 : Option CreatePageOption) (o2 : Option EditPageOption) :
    (CreatePageParams client title (some []) o1).Get "content" = "[]"
    ∧ (EditPageParams client path title (some []) o2).Get "content" = "[]"
    ∧ (CreatePageParams client title none o1).Get "content" = "null"
    ∧ (EditPageParams client path title none o2).Get "content" = "null" := by
  simp only [CreatePageParams_content, EditPageParams_content]
  exact ⟨rfl, rfl, rfl, rfl⟩

/-- C8, counterexample: for the nil slice `CreatePage` sends `content=null`, which
is not the empty array. -/
theorem nil_content_not_empty_array :
    (CreatePageParams ⟨"", fun _ _ => .ok ""⟩ "title" none none).Get "content" = "null"
    ∧ (CreatePageParams ⟨"", fun _ _ => .ok ""⟩ "title" none none).Get "content" ≠ "[]" := by
  decide

/-- C10: the request of `GetViews` has an `hour` parameter exactly when the option
is non-nil with `Hour > 1`, and then its value is `strconv.Itoa(Hour)`; likewise
`offset` and `limit` of `GetPageList`; so an `Hour`, `Offset` or `Limit` of 0 or 1
is never sent. -/
theorem optional_int_params (client : Client) (path : String) (year month day : Int)
    (vo : Option GetViewsOption) (lo : Option GetPageListOption) :
    ((GetViewsParams path year month day vo).Has "hour" = true ↔ ∃ o, vo = some o ∧ o.Hour > 1)
    ∧ (∀ o, vo = some o → o.Hour > 1 →
        (GetViewsParams path year month day vo).Get "hour" = Itoa o.Hour)
    ∧ ((GetPageListParams client lo).Has "offset" = true ↔ ∃ o, lo = some o ∧ o.Offset > 1)
    ∧ (∀ o, lo = some o → o.Offset > 1 →
        (GetPageListParams client lo).Get "offset" = Itoa o.Offset)
    ∧ ((GetPageListParams client lo).Has "limit" = true ↔ ∃ o, lo = some o ∧ o.Limit > 1)
    ∧ (∀ o, lo = some o → o.Limit > 1 →
        (GetPageListParams client lo).Get "limit" = Itoa o.Limit)
    ∧ (∀ o, vo = some o → (o.Hour = 0 ∨ o.Hour = 1) →
        (GetViewsParams path year month day vo).Has "hour" = false)
    ∧ (∀ o, lo = some o → (o.Offset = 0 ∨ o.Offset = 1) →
        (GetPageListParams client lo).Has "offset" = false)
    ∧ (∀ o, lo = some o → (o.Limit = 0 ∨ o.Limit = 1) →
        (GetPageListParams client lo).Has "limit" = false) := by
  refine ⟨?_, ?_, ?_, ?_, ?_, ?_, ?_, ?_, ?_⟩
  · cases vo with
    | none => simp [GetViewsParams, Values.Add, Values.Has]
    | some o =>
      by_cases h : o.Hour > 1 <;> simp [GetViewsParams, Values.Add, Values.Has, h]
  · intro o ho h
    subst ho
    simp [GetViewsParams, Values.Add, Values.Get, List.find?, h]
  · cases lo with
    | none => simp [GetPageListParams, Values.Add, Values.Has]
    | some o =>
      by_cases h : o.Offset > 1 <;> by_cases h' : o.Limit > 1 <;>
        simp [GetPageListParams, Values.Add, Values.Has, h, h']
  · intro o ho h
    subst ho
    by_cases h' : o.Limit > 1 <;>
      simp [GetPageListParams, Values.Add, Values.Get, List.find?, h, h']
  · cases lo with
    | none => simp [GetPageListParams, Values.Add, Values.Has]
    | some o =>
      by_cases h : o.Offset > 1 <;> by_cases h' : o.Limit > 1 <;>
        simp [GetPageListParams, Values.Add, Values.Has, h, h']
  · intro o ho h'
    subst ho
    by_cases h : o.Offset > 1 <;>
      simp [GetPageListParams, Values.Add, Values.Get, List.find?, h, h']
  · intro o ho h
    subst ho
    have : ¬ o.Hour > 1 := by omega
    simp [GetViewsParams, Values.Add, Values.Has, this]
  · intro o ho h
    subst ho
    have : ¬ o.Offset > 1 := by omega
    by_cases h' : o.Limit > 1 <;>
      simp [GetPageListParams, Values.Add, Values.Has, this, h']
  · intro o ho h
    subst ho
    have : ¬ o.Limit > 1 := by omega
    by_cases h' : o.Offset > 1 <;>
      simp [GetPageListParams, Values.Add, Values.Has, this, h']

theorem writeFields_data (n : Nat) (fs : List String) :
    ∀ (i : Nat) (b : String), fs ≠ [] → n = i + fs.length →
      (writeFields n i fs b).data
        = b.data ++ (if i = 0 then ['[', '"'] else []) ++ listTail String.data fs := by
  induction fs with
  | nil => intro i b h; exact absurd rfl h
  | cons v rest ih =>
    intro i b _ hn
    cases rest with
    | nil =>
      have hn' : n = i + 1 := by simpa using hn
      subst hn'
      by_cases h0 : i = 0 <;> simp [writeFields, listTail, h0]
    | cons w rest =>
      have hi : ¬ i = n - 1 := by simp at hn; omega
      have hrec := ih (i + 1) (if i = 0 then b ++ String.mk ['[', '"'] ++ v ++ String.mk ['"', ',', '"']
        else b ++ v ++ String.mk ['"', ',', '"']) (by simp) (by simp at hn ⊢; omega)
      by_cases h0 : i = 0
      · subst h0
        simp [writeFields, listTail, hi] at hrec ⊢
        rw [hrec]
      · simp [writeFields, listTail, hi, h0] at hrec ⊢
        rw [hrec]

theorem renderElems_strs (fs : List String) (h : fs ≠ []) :
    JSON.renderElems (fs.map JSON.str) ++ [']']
      = '"' :: listTail (fun s => s.data.flatMap escapeChar) fs := by
  induction fs with
  | nil => exact absurd rfl h
  | cons v rest ih =>
    cases rest with
    | nil => simp [JSON.renderElems, JSON.render, quote, listTail]
    | cons w rest =>
      have := ih (by simp)
      simp [JSON.renderElems, JSON.render, quote, listTail] at this ⊢
      rw [this]

theorem marshalStrings_data (fs : List String) (h : fs ≠ []) :
    (marshalStrings fs).data
      = '[' :: '"' :: listTail (fun s => s.data.flatMap escapeChar) fs := by
  simp [marshalStrings, JSON.render, renderElems_strs fs h]

theorem escapeChar_length (c : Char) : 1 ≤ (escapeChar c).length := by
  unfold escapeChar; split_ifs <;> simp

theorem escapeChar_length_unsafe (c : Char) (h : htmlSafe c = false) :
    2 ≤ (escapeChar c).length := by
  unfold escapeChar; simp [h]; split_ifs <;> simp

theorem escape_length (cs : List Char) : cs.length ≤ (cs.flatMap escapeChar).length := by
  induction cs with
  | nil => simp
  | cons c cs ih =>
    have := escapeChar_length c
    simp only [List.flatMap_cons, List.length_append, List.length_cons]; omega

theorem escape_safe (cs : List Char) (h : ∀ c ∈ cs, htmlSafe c = true) :
    cs.flatMap escapeChar = cs := by
  induction cs with
  | nil => simp
  | cons c cs ih =>
    have hc : htmlSafe c = true := h c (by simp)
    have := ih (fun c hc => h c (by simp [hc]))
    simp [List.flatMap_cons, this, escapeChar, hc]

theorem escape_length_unsafe (cs : List Char) (h : ∃ c ∈ cs, htmlSafe c = false) :
    cs.length < (cs.flatMap escapeChar).length := by
  induction cs with
  | nil => simp at h
  | cons c cs ih =>
    simp only [List.flatMap_cons, List.length_append, List.length_cons]
    by_cases hc : htmlSafe c = false
    · have := escapeChar_length_unsafe c hc
      have := escape_length cs
      omega
    · have h' : ∃ c ∈ cs, htmlSafe c = false := by
        obtain ⟨d, hd, hs⟩ := h
        rcases List.mem_cons.mp hd with rfl | hd
        · exact absurd hs hc
        · exact ⟨d, hd, hs⟩
      have := ih h'
      have := escapeChar_length c
      omega

theorem listTail_length_le (fs : List String) :
    (listTail String.data fs).length
      ≤ (listTail (fun s => s.data.flatMap escapeChar) fs).length := by
  induction fs with
  | nil => simp [listTail]
  | cons v rest ih =>
    have := escape_length v.data
    cases rest with
    | nil => simp only [listTail, List.length_append, List.length_cons, List.length_nil]; omega
    | cons w rest =>
      simp only [listTail, List.length_append, List.length_cons, List.length_nil] at ih ⊢; omega

theorem listTail_length_lt (fs : List String)
    (h : ∃ s ∈ fs, ∃ c ∈ s.data, htmlSafe c = false) :
    (listTail String.data fs).length
      < (listTail (fun s => s.data.flatMap escapeChar) fs).length := by
  induction fs with
  | nil => simp at h
  | cons v rest ih =>
    by_cases hv : ∃ c ∈ v.data, htmlSafe c = false
    · have := escape_length_unsafe v.data hv
      cases rest with
      | nil => simp only [listTail, List.length_append, List.length_cons, List.length_nil]; omega
      | cons w rest =>
        have := listTail_length_le (w :: rest)
        simp only [listTail, List.length_append, List.length_cons, List.length_nil] at this ⊢
        omega
    · have h' : ∃ s ∈ rest, ∃ c ∈ s.data, htmlSafe c = false := by
        obtain ⟨s, hs, hc⟩ := h
        rcases List.mem_cons.mp hs with rfl | hs
        · exact absurd hc hv
        · exact ⟨s, hs, hc⟩
      have := escape_length v.data
      cases rest with
      | nil => simp at h'
      | cons w rest =>
        have := ih h'
        simp only [listTail, List.length_append, List.length_cons, List.length_nil] at this ⊢
        omega

theorem listTail_safe (fs : List String) (h : ∀ s ∈ fs, ∀ c ∈ s.data, htmlSafe c = true) :
    listTail (fun s => s.data.flatMap escapeChar) fs = listTail String.data fs := by
  induction fs with
  | nil => rfl
  | cons v rest ih =>
    have hv := escape_safe v.data (h v (by simp))
    have hr := ih (fun s hs => h s (by simp [hs]))
    cases rest with
    | nil => simp [listTail, hv]
    | cons w rest => simp only [listTail, hv, hr]

theorem fieldsParam_nonempty (fs : List String) (h : fs ≠ []) :
    fieldsParam fs = writeFields fs.length 0 fs "" := by
  cases fs with
  | nil => exact absurd rfl h
  | cons v rest => simp [fieldsParam]

/-- C9, amended: for a non-empty list of field names, the `fields` parameter that the
loop of `GetAccountInfo` writes equals the JSON encoding of the list as an array
of strings exactly when no name contains a character the encoder escapes (a
double quote, a backslash, a control character, `<`, `>`, `&`, U+2028, U+2029). -/
theorem fields_param_eq_marshal_iff (client : Client) (fs : List String) (h : fs ≠ []) :
    (GetAccountInfoParams client (some ⟨fs⟩)).Get "fields" = marshalStrings fs
      ↔ ∀ s ∈ fs, ∀ c ∈ s.data, htmlSafe c = true := by
  have hget : (GetAccountInfoParams client (some ⟨fs⟩)).Get "fields" = fieldsParam fs := by
    simp [GetAccountInfoParams, Values.Add, Values.Get, List.find?]
  have hdata : (fieldsParam fs).data = '[' :: '"' :: listTail String.data fs := by
    rw [fieldsParam_nonempty fs h, writeFields_data fs.length fs 0 "" h (by simp)]
    simp
  rw [hget]
  constructor
  · intro heq
    by_contra hne
    push_neg at hne
    have hlt := listTail_length_lt fs (by
      obtain ⟨s, hs, c, hc, hsafe⟩ := hne
      exact ⟨s, hs, c, hc, by simpa using hsafe⟩)
    have := congrArg String.data heq
    rw [hdata, marshalStrings_data fs h] at this
    simp at this
    rw [this] at hlt
    exact lt_irrefl _ hlt
  · intro hsafe
    apply String.ext
    rw [hdata, marshalStrings_data fs h, listTail_safe fs hsafe]

/-- C9, witness: the three default field names are written exactly as the JSON
encoder writes them. -/
theorem fields_param_eq_marshal_iff_witness :
    (GetAccountInfoParams ⟨"", fun _ _ => .ok ""⟩
        (some ⟨[FieldShortName, FieldAuthorName, FieldAuthorURL]⟩)).Get "fields"
      = marshalStrings [FieldShortName, FieldAuthorName, FieldAuthorURL] :=
  (fields_param_eq_marshal_iff ⟨"", fun _ _ => .ok ""⟩
    [FieldShortName, FieldAuthorName, FieldAuthorURL] (by decide)).mpr (by decide)

/-- C9, counterexample: for the single name `a"b` the loop writes `["a"b"]`, the
JSON encoder `["a\"b"]`. -/
theorem fields_param_quote_counterexample :
    (GetAccountInfoParams ⟨"", fun _ _ => .ok ""⟩ (some ⟨["a\"b"]⟩)).Get "fields" = "[\"a\"b\"]"
    ∧ marshalStrings ["a\"b"] = "[\"a\\\"b\"]"
    ∧ (GetAccountInfoParams ⟨"", fun _ _ => .ok ""⟩ (some ⟨["a\"b"]⟩)).Get "fields"
        ≠ marshalStrings ["a\"b"] := by
  decide

/-! ## Maps sorted by key -/

theorem lexLt_irrefl : ∀ a : List Char, lexLt a a = false := by
  intro a
  induction a with
  | nil => rfl
  | cons c a ih => simp [lexLt, ih]

theorem lexLt_trans : ∀ a b c : List Char, lexLt a b = true → lexLt b c = true →
    lexLt a c = true := by
  intro a
  induction a with
  | nil =>
    intro b c hab hbc
    cases c with
    | nil => cases b <;> simp [lexLt] at hbc
    | cons z c => rfl
  | cons x a ih =>
    intro b c hab hbc
    cases b with
    | nil => simp [lexLt] at hab
    | cons y b =>
      cases c with
      | nil => simp [lexLt] at hbc
      | cons z c =>
        simp only [lexLt, Bool.or_eq_true, decide_eq_true_eq, Bool.and_eq_true, beq_iff_eq]
          at hab hbc ⊢
        rcases hab with h1 | ⟨rfl, h1⟩
        · rcases hbc with h2 | ⟨rfl, h2⟩
          · left; omega
          · left; exact h1
        · rcases hbc with h2 | ⟨rfl, h2⟩
          · left; exact h2
          · right; exact ⟨rfl, ih b c h1 h2⟩

theorem lexLt_total : ∀ a b : List Char, lexLt a b = false → a ≠ b → lexLt b a = true := by
  intro a
  induction a with
  | nil =>
    intro b hab hne
    cases b with
    | nil => exact absurd rfl hne
    | cons y b => simp [lexLt] at hab
  | cons x a ih =>
    intro b hab hne
    cases b with
    | nil => rfl
    | cons y b =>
      simp only [lexLt, Bool.or_eq_false_iff, decide_eq_false_iff_not, Bool.and_eq_false_imp,
        beq_iff_eq, Bool.or_eq_true, decide_eq_true_eq, Bool.and_eq_true] at hab ⊢
      obtain ⟨h1, h2⟩ := hab
      by_cases hxy : x = y
      · subst hxy
        right
        refine ⟨rfl, ih b (h2 rfl) ?_⟩
        intro e; exact hne (by rw [e])
      · left
        have : x.toNat ≠ y.toNat := fun e => hxy (by
          rw [← Char.ofNat_toNat x, ← Char.ofNat_toNat y, e])
        omega

theorem keyLt_irrefl (a : String) : keyLt a a = false := lexLt_irrefl _

theorem keyLt_trans {a b c : String} (h1 : keyLt a b = true) (h2 : keyLt b c = true) :
    keyLt a c = true := lexLt_trans _ _ _ h1 h2

theorem keyLt_total {a b : String} (h : keyLt a b = false) (hne : a ≠ b) :
    keyLt b a = true :=
  lexLt_total _ _ h (fun e => hne (String.ext e))

theorem keyLt_asymm {a b : String} (h : keyLt a b = true) : keyLt b a = false := by
  cases hba : keyLt b a with
  | false => rfl
  | true =>
    have := keyLt_trans h hba
    rw [keyLt_irrefl] at this
    exact Bool.noConfusion this

theorem keyLt_ne {a b : String} (h : keyLt a b = true) : a ≠ b := by
  intro e; subst e; rw [keyLt_irrefl] at h; exact Bool.noConfusion h

theorem mem_mapInsert {α : Type} (k : String) (v : α) :
    ∀ (m : List (String × α)) (x : String × α), x ∈ mapInsert k v m → x = (k, v) ∨ x ∈ m := by
  intro m
  induction m with
  | nil => intro x hx; simpa [mapInsert] using hx
  | cons y m ih =>
    obtain ⟨k', v'⟩ := y
    intro x hx
    unfold mapInsert at hx
    split_ifs at hx with h1 h2
    · rcases List.mem_cons.mp hx with rfl | hx
      · exact Or.inl rfl
      · exact Or.inr hx
    · rcases List.mem_cons.mp hx with rfl | hx
      · exact Or.inl rfl
      · exact Or.inr (List.mem_cons_of_mem _ hx)
    · rcases List.mem_cons.mp hx with rfl | hx
      · exact Or.inr (List.mem_cons_self _ _)
      · rcases ih x hx with h | h
        · exact Or.inl h
        · exact Or.inr (List.mem_cons_of_mem _ h)

theorem keysSorted_mapInsert {α : Type} (k : String) (v : α) :
    ∀ (m : List (String × α)), keysSorted m → keysSorted (mapInsert k v m) := by
  intro m
  induction m with
  | nil => intro _; simp [mapInsert, keysSorted]
  | cons y m ih =>
    obtain ⟨k', v'⟩ := y
    intro hs
    unfold keysSorted at hs ih ⊢
    rw [List.pairwise_cons] at hs
    obtain ⟨hhead, htail⟩ := hs
    unfold mapInsert
    split_ifs with h1 h2
    · refine List.pairwise_cons.mpr ⟨?_, List.pairwise_cons.mpr ⟨hhead, htail⟩⟩
      intro x hx
      rcases List.mem_cons.mp hx with rfl | hx
      · exact h1
      · exact keyLt_trans h1 (hhead x hx)
    · subst h2
      exact List.pairwise_cons.mpr ⟨hhead, htail⟩
    · refine List.pairwise_cons.mpr ⟨?_, ih htail⟩
      intro x hx
      rcases mem_mapInsert k v m x hx with rfl | hx
      · exact keyLt_total (by simpa using h1) h2
      · exact hhead x hx

theorem mapInsert_last {α : Type} (k : String) (v : α) :
    ∀ (m : List (String × α)), (∀ x ∈ m, keyLt x.1 k = true) →
      mapInsert k v m = m ++ [(k, v)] := by
  intro m
  induction m with
  | nil => intro _; rfl
  | cons y m ih =>
    obtain ⟨k', v'⟩ := y
    intro h
    have hk : keyLt k' k = true := h (k', v') (List.mem_cons_self _ _)
    unfold mapInsert
    rw [if_neg (by rw [keyLt_asymm hk]; exact Bool.false_ne_true),
      if_neg (fun e => keyLt_ne hk e.symm)]
    rw [ih (fun x hx => h x (List.mem_cons_of_mem _ hx))]
    rfl

theorem foldl_mapInsert_sorted {α : Type} :
    ∀ (l acc : List (String × α)), keysSorted (acc ++ l) →
      l.foldl (fun m kv => mapInsert kv.1 kv.2 m) acc = acc ++ l := by
  intro l
  induction l with
  | nil => intro acc _; simp
  | cons x l ih =>
    intro acc hs
    have hlast : mapInsert x.1 x.2 acc = acc ++ [x] := by
      apply mapInsert_last
      intro y hy
      unfold keysSorted at hs
      rw [List.pairwise_append] at hs
      exact hs.2.2 y hy x (List.mem_cons_self _ _)
    simp only [List.foldl_cons, hlast]
    rw [ih (acc ++ [x]) (by simpa using hs)]
    simp

theorem mapOfList_of_sorted {α : Type} (l : List (String × α)) (h : keysSorted l) :
    mapOfList l = l := by
  unfold mapOfList
  rw [foldl_mapInsert_sorted l [] (by simpa using h)]
  rfl

theorem keysSorted_mapOfList {α : Type} (l : List (String × α)) : keysSorted (mapOfList l) := by
  unfold mapOfList
  have : ∀ (l acc : List (String × α)), keysSorted acc →
      keysSorted (l.foldl (fun m kv => mapInsert kv.1 kv.2 m) acc) := by
    intro l
    induction l with
    | nil => intro acc h; exact h
    | cons x l ih => intro acc h; exact ih _ (keysSorted_mapInsert x.1 x.2 acc h)
  exact this l [] (by simp [keysSorted])

theorem keysSorted_map {α β : Type} (g : α → β) (m : List (String × α)) (h : keysSorted m) :
    keysSorted (m.map (fun kv => (kv.1, g kv.2))) := by
  unfold keysSorted at h ⊢
  rw [List.pairwise_map]
  exact h

/-! ## Reading back what the encoder writes -/

theorem hexVal_hex (n : Nat) (h : n < 16) : hexVal (hex n) = some n := by
  interval_cases n <;> decide

theorem scanString_quote (p : Option Nat) (cs : List Char) :
    scanString p ('"' :: cs) = some (flushSurrogate p ([], cs)) := by
  rw [scanString.eq_def]
  simp

theorem scanString_plain (c : Char) (cs : List Char) (h1 : c ≠ '"') (h2 : c ≠ '\\')
    (h3 : ¬ c.toNat < 0x20) :
    scanString none (c :: cs) = (scanString none cs).map (fun r => (c :: r.1, r.2)) := by
  rw [scanString.eq_def]
  simp [h1, h2, h3, flushSurrogate]

theorem scanString_simple (e x : Char) (cs : List Char) (he : e ≠ 'u')
    (hx : unescape e = some x) :
    scanString none ('\\' :: e :: cs) = (scanString none cs).map (fun r => (x :: r.1, r.2)) := by
  rw [scanString.eq_def]
  simp [he, hx, flushSurrogate]

theorem scanString_u4 (h1 h2 h3 h4 : Char) (u : Nat) (cs : List Char)
    (hu : getu4 h1 h2 h3 h4 = some u) (hlt : u < 0xD800) :
    scanString none ('\\' :: 'u' :: h1 :: h2 :: h3 :: h4 :: cs)
      = (scanString none cs).map (fun r => (Char.ofNat u :: r.1, r.2)) := by
  rw [scanString.eq_def]
  have a : ¬ (0xDC00 ≤ u ∧ u < 0xE000) := by omega
  have b : ¬ (0xD800 ≤ u ∧ u < 0xDC00) := by omega
  simp [hu, a, b, flushSurrogate]

theorem scanString_escape (c : Char) (cs : List Char) :
    scanString none (escapeChar c ++ cs) = (scanString none cs).map (fun r => (c :: r.1, r.2)) := by
  unfold escapeChar
  by_cases hs : htmlSafe c = true
  · simp only [hs, if_true, List.singleton_append]
    simp only [htmlSafe, Bool.not_eq_true', Bool.or_eq_false_iff, decide_eq_false_iff_not,
      beq_eq_false_iff_ne, ne_eq] at hs
    obtain ⟨⟨⟨⟨⟨⟨⟨h1, h2⟩, h3⟩, _⟩, _⟩, _⟩, _⟩, _⟩ := hs
    exact scanString_plain c cs h2 h3 h1
  · simp only [hs, Bool.false_eq_true, if_false]
    by_cases hq : (c == '\\' || c == '"') = true
    · simp only [hq, if_true]
      simp only [Bool.or_eq_true, beq_iff_eq] at hq
      rcases hq with rfl | rfl
      · exact scanString_simple _ _ cs (by decide) (by decide)
      · exact scanString_simple _ _ cs (by decide) (by decide)
    · simp only [hq, Bool.false_eq_true, if_false]
      by_cases hn : (c == '\n') = true
      · simp only [hn, if_true]
        obtain rfl : c = '\n' := by simpa using hn
        exact scanString_simple _ _ cs (by decide) (by decide)
      · simp only [hn, Bool.false_eq_true, if_false]
        by_cases hr : (c == '\r') = true
        · simp only [hr, if_true]
          obtain rfl : c = '\r' := by simpa using hr
          exact scanString_simple _ _ cs (by decide) (by decide)
        · simp only [hr, Bool.false_eq_true, if_false]
          by_cases ht : (c == '\t') = true
          · simp only [ht, if_true]
            obtain rfl : c = '\t' := by simpa using ht
            exact scanString_simple _ _ cs (by decide) (by decide)
          · simp only [ht, Bool.false_eq_true, if_false]
            by_cases hlt : c.toNat < 0x80
            · simp only [hlt, if_true]
              have hu : getu4 '0' '0' (hex (c.toNat / 16)) (hex (c.toNat % 16))
                  = some c.toNat := by
                have e1 := hexVal_hex (c.toNat / 16) (by omega)
                have e2 := hexVal_hex (c.toNat % 16) (by omega)
                have e0 : hexVal '0' = some 0 := by decide
                simp only [getu4, e0, e1, e2, Option.some.injEq]
                omega
              have := scanString_u4 '0' '0' (hex (c.toNat / 16)) (hex (c.toNat % 16)) c.toNat cs
                hu (by omega)
              simpa using this
            · simp only [hlt, if_false]
              have hc : c.toNat = 0x2028 ∨ c.toNat = 0x2029 := by
                rw [Bool.not_eq_true] at hs
                simp only [htmlSafe, Bool.not_eq_false', Bool.or_eq_true,
                  decide_eq_true_eq, beq_iff_eq] at hs
                rcases hs with ((((((h | h) | h) | h) | h) | h) | h) | h
                · omega
                · subst h; exact absurd (by decide) hlt
                · subst h; exact absurd (by decide) hlt
                · subst h; exact absurd (by decide) hlt
                · subst h; exact absurd (by decide) hlt
                · subst h; exact absurd (by decide) hlt
                · exact Or.inl h
                · exact Or.inr h
              have hu : getu4 '2' '0' '2' (hex (c.toNat % 16)) = some c.toNat := by
                rcases hc with h | h <;> rw [h] <;> decide
              have := scanString_u4 '2' '0' '2' (hex (c.toNat % 16)) c.toNat cs hu (by omega)
              simpa using this

theorem scanString_escaped (s cs : List Char) :
    scanString none (s.flatMap escapeChar ++ '"' :: cs) = some (s, cs) := by
  induction s with
  | nil => simp [scanString_quote, flushSurrogate]
  | cons c s ih =>
    simp only [List.flatMap_cons, List.append_assoc]
    rw [scanString_escape, ih]
    rfl

theorem skipSpace_cons (c : Char) (cs : List Char) (h : isSpace c = false) :
    skipSpace (c :: cs) = c :: cs := by
  simp [skipSpace, h]

theorem parseValue_str (fuel depth : Nat) (s : String) (rest : List Char) :
    parseValue (fuel + 1) depth (quote s ++ rest) = some (.str s, rest) := by
  simp [quote, parseValue, scanString_escaped]

theorem parseValue_null (fuel depth : Nat) (rest : List Char) :
    parseValue (fuel + 1) depth ("null".data ++ rest) = some (.null, rest) := by
  simp [parseValue, dropLiteral]

theorem parseValue_true (fuel depth : Nat) (rest : List Char) :
    parseValue (fuel + 1) depth ("true".data ++ rest) = some (.bool true, rest) := by
  simp [parseValue, dropLiteral]

theorem parseValue_false (fuel depth : Nat) (rest : List Char) :
    parseValue (fuel + 1) depth ("false".data ++ rest) = some (.bool false, rest) := by
  simp [parseValue, dropLiteral]

theorem parseValue_arr_nil (fuel depth : Nat) (rest : List Char) (hd : depth < maxNestingDepth) :
    parseValue (fuel + 1) depth ('[' :: ']' :: rest) = some (.arr [], rest) := by
  have : ¬ maxNestingDepth ≤ depth := by omega
  simp [parseValue, this, skipSpace, isSpace]

theorem parseValue_arr_cons (fuel depth : Nat) (c : Char) (cs : List Char)
    (xs : List JSON) (r : List Char)
    (hd : depth < maxNestingDepth) (hs : isSpace c = false) (hc : c ≠ ']')
    (h : parseElems fuel (depth + 1) (c :: cs) = some (xs, r)) :
    parseValue (fuel + 1) depth ('[' :: c :: cs) = some (.arr xs, r) := by
  have : ¬ maxNestingDepth ≤ depth := by omega
  simp [parseValue, this, skipSpace, hs, hc, h]

theorem parseValue_obj_nil (fuel depth : Nat) (rest : List Char) (hd : depth < maxNestingDepth) :
    parseValue (fuel + 1) depth ('{' :: '}' :: rest) = some (.obj [], rest) := by
  have : ¬ maxNestingDepth ≤ depth := by omega
  simp [parseValue, this, skipSpace, isSpace]

theorem parseValue_obj_cons (fuel depth : Nat) (cs : List Char)
    (ms : List (String × JSON)) (r : List Char)
    (hd : depth < maxNestingDepth)
    (h : parseMembers fuel (depth + 1) ('"' :: cs) = some (ms, r)) :
    parseValue (fuel + 1) depth ('{' :: '"' :: cs) = some (.obj ms, r) := by
  have : ¬ maxNestingDepth ≤ depth := by omega
  simp [parseValue, this, skipSpace, isSpace, h]

/-- The text of a value without numbers starts with a character that is neither
white space nor a closing bracket. -/
theorem render_head (j : JSON) (hn : j.noNumbers = true) :
    ∃ c cs, j.render = c :: cs ∧ isSpace c = false ∧ c ≠ ']' ∧ c ≠ '}' := by
  cases j with
  | null => exact ⟨'n', _, rfl, by decide, by decide, by decide⟩
  | bool b =>
    cases b
    · exact ⟨'f', _, rfl, by decide, by decide, by decide⟩
    · exact ⟨'t', _, rfl, by decide, by decide, by decide⟩
  | num n => simp [JSON.noNumbers] at hn
  | str s => exact ⟨'"', _, rfl, by decide, by decide, by decide⟩
  | arr xs => exact ⟨'[', _, rfl, by decide, by decide, by decide⟩
  | obj ms => exact ⟨'{', _, rfl, by decide, by decide, by decide⟩

theorem parseElems_last (fuel depth : Nat) (cs rest : List Char) (x : JSON)
    (h : parseValue fuel depth cs = some (x, ']' :: rest)) :
    parseElems (fuel + 1) depth cs = some ([x], rest) := by
  simp [parseElems, h, skipSpace, isSpace]

theorem parseElems_more (fuel depth : Nat) (cs r rest : List Char) (x : JSON) (xs : List JSON)
    (h : parseValue fuel depth cs = some (x, ',' :: r))
    (hr : skipSpace r = r)
    (h' : parseElems fuel depth r = some (xs, rest)) :
    parseElems (fuel + 1) depth cs = some (x :: xs, rest) := by
  simp [parseElems, h, skipSpace, isSpace, hr, h']

theorem parseMembers_last (fuel depth : Nat) (k : String) (cs rest : List Char) (x : JSON)
    (hs : skipSpace cs = cs)
    (h : parseValue fuel depth cs = some (x, '}' :: rest)) :
    parseMembers (fuel + 1) depth (quote k ++ ':' :: cs) = some ([(k, x)], rest) := by
  simp [parseMembers, quote, scanString_escaped, skipSpace, isSpace, hs, h]

theorem parseMembers_more (fuel depth : Nat) (k : String) (cs r rest : List Char) (x : JSON)
    (ms : List (String × JSON))
    (hs : skipSpace cs = cs)
    (h : parseValue fuel depth cs = some (x, ',' :: r))
    (hr : skipSpace r = r)
    (h' : parseMembers fuel depth r = some (ms, rest)) :
    parseMembers (fuel + 1) depth (quote k ++ ':' :: cs) = some ((k, x) :: ms, rest) := by
  simp [parseMembers, quote, scanString_escaped, skipSpace, isSpace, hs, h, hr, h']

theorem skipSpace_render (j : JSON) (rest : List Char) (hn : j.noNumbers = true) :
    skipSpace (j.render ++ rest) = j.render ++ rest := by
  obtain ⟨c, cs, hc, hs, _, _⟩ := render_head j hn
  rw [hc, List.cons_append, skipSpace_cons _ _ hs]

mutual
theorem parse_render : ∀ (j : JSON) (fuel depth : Nat) (rest : List Char),
    j.noNumbers = true → j.count ≤ fuel → depth + j.nesting ≤ maxNestingDepth →
    parseValue fuel depth (j.render ++ rest) = some (j, rest)
  | .null, fuel, depth, rest, _, hc, _ => by
    obtain ⟨f, rfl⟩ : ∃ f, fuel = f + 1 := ⟨fuel - 1, by simp [JSON.count] at hc; omega⟩
    exact parseValue_null f depth rest
  | .bool true, fuel, depth, rest, _, hc, _ => by
    obtain ⟨f, rfl⟩ : ∃ f, fuel = f + 1 := ⟨fuel - 1, by simp [JSON.count] at hc; omega⟩
    exact parseValue_true f depth rest
  | .bool false, fuel, depth, rest, _, hc, _ => by
    obtain ⟨f, rfl⟩ : ∃ f, fuel = f + 1 := ⟨fuel - 1, by simp [JSON.count] at hc; omega⟩
    exact parseValue_false f depth rest
  | .num n, _, _, _, hn, _, _ => by simp [JSON.noNumbers] at hn
  | .str s, fuel, depth, rest, _, hc, _ => by
    obtain ⟨f, rfl⟩ : ∃ f, fuel = f + 1 := ⟨fuel - 1, by simp [JSON.count] at hc; omega⟩
    exact parseValue_str f depth s rest
  | .arr [], fuel, depth, rest, _, hc, hd => by
    obtain ⟨f, rfl⟩ : ∃ f, fuel = f + 1 := ⟨fuel - 1, by simp [JSON.count] at hc; omega⟩
    simp only [JSON.nesting] at hd
    exact parseValue_arr_nil f depth rest (by omega)
  | .arr (x :: xs), fuel, depth, rest, hn, hc, hd => by
    obtain ⟨f, rfl⟩ : ∃ f, fuel = f + 1 := ⟨fuel - 1, by simp [JSON.count] at hc; omega⟩
    simp only [JSON.nesting] at hd
    simp only [JSON.count] at hc
    simp only [JSON.noNumbers] at hn
    have hx : (JSON.noNumbers x) = true := by
      simp only [JSON.noNumbersList, Bool.and_eq_true] at hn; exact hn.1
    have hrec := parse_renderElems (x :: xs) f (depth + 1) rest (by simp) hn (by omega)
      (by omega)
    obtain ⟨c, cs, hcs, hs, hb, _⟩ := render_head x hx
    have hhead : ∃ cs', JSON.renderElems (x :: xs) ++ ']' :: rest = c :: cs' := by
      cases xs with
      | nil => exact ⟨cs ++ ']' :: rest, by simp [JSON.renderElems, hcs]⟩
      | cons y ys =>
        exact ⟨cs ++ ',' :: (JSON.renderElems (y :: ys) ++ ']' :: rest),
          by simp [JSON.renderElems, hcs]⟩
    obtain ⟨cs', hcs'⟩ := hhead
    have : (JSON.arr (x :: xs)).render ++ rest
        = '[' :: (JSON.renderElems (x :: xs) ++ ']' :: rest) := by
      simp [JSON.render]
    rw [this, hcs']
    rw [hcs'] at hrec
    exact parseValue_arr_cons f depth c cs' _ _ (by omega) hs hb hrec
  | .obj [], fuel, depth, rest, _, hc, hd => by
    obtain ⟨f, rfl⟩ : ∃ f, fuel = f + 1 := ⟨fuel - 1, by simp [JSON.count] at hc; omega⟩
    simp only [JSON.nesting] at hd
    exact parseValue_obj_nil f depth rest (by omega)
  | .obj (m :: ms), fuel, depth, rest, hn, hc, hd => by
    obtain ⟨f, rfl⟩ : ∃ f, fuel = f + 1 := ⟨fuel - 1, by simp [JSON.count] at hc; omega⟩
    simp only [JSON.nesting] at hd
    simp only [JSON.count] at hc
    simp only [JSON.noNumbers] at hn
    have hrec := parse_renderMembers (m :: ms) f (depth + 1) rest (by simp) hn (by omega)
      (by omega)
    have hhead : ∃ cs', JSON.renderMembers (m :: ms) ++ '}' :: rest = '"' :: cs' := by
      obtain ⟨k, v⟩ := m
      cases ms with
      | nil =>
        exact ⟨k.data.flatMap escapeChar ++ '"' :: ':' :: (v.render ++ '}' :: rest),
          by simp [JSON.renderMembers, quote]⟩
      | cons y ys =>
        exact ⟨k.data.flatMap escapeChar ++ '"' :: ':'
            :: (v.render ++ ',' :: (JSON.renderMembers (y :: ys) ++ '}' :: rest)),
          by simp [JSON.renderMembers, quote]⟩
    obtain ⟨cs', hcs'⟩ := hhead
    have : (JSON.obj (m :: ms)).render ++ rest
        = '{' :: (JSON.renderMembers (m :: ms) ++ '}' :: rest) := by
      simp [JSON.render]
    rw [this, hcs']
    rw [hcs'] at hrec
    exact parseValue_obj_cons f depth cs' _ _ (by omega) hrec
theorem parse_renderElems : ∀ (xs : List JSON) (fuel depth : Nat) (rest : List Char),
    xs ≠ [] → JSON.noNumbersList xs = true → JSON.countList xs ≤ fuel →
    depth + JSON.nestingList xs ≤ maxNestingDepth →
    parseElems fuel depth (JSON.renderElems xs ++ ']' :: rest) = some (xs, rest)
  | [], _, _, _, hne, _, _, _ => absurd rfl hne
  | [x], fuel, depth, rest, _, hn, hc, hd => by
    obtain ⟨f, rfl⟩ : ∃ f, fuel = f + 1 := ⟨fuel - 1, by simp [JSON.countList] at hc; omega⟩
    simp only [JSON.noNumbersList, Bool.and_true] at hn
    simp only [JSON.countList] at hc
    simp only [JSON.nestingList] at hd
    have := parse_render x f depth (']' :: rest) hn (by omega) (by omega)
    simp only [JSON.renderElems]
    exact parseElems_last f depth _ rest x this
  | x :: y :: ys, fuel, depth, rest, _, hn, hc, hd => by
    obtain ⟨f, rfl⟩ : ∃ f, fuel = f + 1 := ⟨fuel - 1, by simp [JSON.countList] at hc; omega⟩
    rw [JSON.noNumbersList, Bool.and_eq_true] at hn
    rw [JSON.countList] at hc
    rw [JSON.nestingList] at hd
    have hy : JSON.noNumbers y = true := by
      have := hn.2; rw [JSON.noNumbersList, Bool.and_eq_true] at this; exact this.1
    have h1 := parse_render x f depth (',' :: (JSON.renderElems (y :: ys) ++ ']' :: rest))
      hn.1 (by omega) (by omega)
    have h2 := parse_renderElems (y :: ys) f depth rest (by simp) hn.2 (by omega) (by omega)
    have hsk : skipSpace (JSON.renderElems (y :: ys) ++ ']' :: rest)
        = JSON.renderElems (y :: ys) ++ ']' :: rest := by
      obtain ⟨c, cs, hcs, hs, _, _⟩ := render_head y hy
      cases ys with
      | nil => simp [JSON.renderElems, hcs, skipSpace, hs]
      | cons z zs => simp [JSON.renderElems, hcs, skipSpace, hs]
    have : JSON.renderElems (x :: y :: ys) ++ ']' :: rest
        = x.render ++ ',' :: (JSON.renderElems (y :: ys) ++ ']' :: rest) := by
      simp [JSON.renderElems]
    rw [this]
    exact parseElems_more f depth _ _ rest x (y :: ys) h1 hsk h2
theorem parse_renderMembers : ∀ (ms : List (String × JSON)) (fuel depth : Nat)
    (rest : List Char),
    ms ≠ [] → JSON.noNumbersMembers ms = true → JSON.countMembers ms ≤ fuel →
    depth + JSON.nestingMembers ms ≤ maxNestingDepth →
    parseMembers fuel depth (JSON.renderMembers ms ++ '}' :: rest) = some (ms, rest)
  | [], _, _, _, hne, _, _, _ => absurd rfl hne
  | [(k, x)], fuel, depth, rest, _, hn, hc, hd => by
    obtain ⟨f, rfl⟩ : ∃ f, fuel = f + 1 := ⟨fuel - 1, by simp [JSON.countMembers] at hc; omega⟩
    simp only [JSON.noNumbersMembers, Bool.and_true] at hn
    simp only [JSON.countMembers] at hc
    simp only [JSON.nestingMembers] at hd
    have := parse_render x f depth ('}' :: rest) hn (by omega) (by omega)
    have hsk := skipSpace_render x ('}' :: rest) hn
    have e : JSON.renderMembers [(k, x)] ++ '}' :: rest
        = quote k ++ ':' :: (x.render ++ '}' :: rest) := by
      simp [JSON.renderMembers]
    rw [e]
    exact parseMembers_last f depth k _ rest x hsk this
  | (k, x) :: m :: ms, fuel, depth, rest, _, hn, hc, hd => by
    obtain ⟨f, rfl⟩ : ∃ f, fuel = f + 1 := ⟨fuel - 1, by simp [JSON.countMembers] at hc; omega⟩
    rw [JSON.noNumbersMembers, Bool.and_eq_true] at hn
    rw [JSON.countMembers] at hc
    rw [JSON.nestingMembers] at hd
    have h1 := parse_render x f depth (',' :: (JSON.renderMembers (m :: ms) ++ '}' :: rest))
      hn.1 (by omega) (by omega)
    have h2 := parse_renderMembers (m :: ms) f depth rest (by simp) hn.2 (by omega) (by omega)
    have hsk := skipSpace_render x (',' :: (JSON.renderMembers (m :: ms) ++ '}' :: rest)) hn.1
    have hsk2 : skipSpace (JSON.renderMembers (m :: ms) ++ '}' :: rest)
        = JSON.renderMembers (m :: ms) ++ '}' :: rest := by
      obtain ⟨k', v'⟩ := m
      cases ms with
      | nil => simp [JSON.renderMembers, quote, skipSpace, isSpace]
      | cons z zs => simp [JSON.renderMembers, quote, skipSpace, isSpace]
    have e : JSON.renderMembers ((k, x) :: m :: ms) ++ '}' :: rest
        = quote k ++ ':' :: (x.render ++ ',' :: (JSON.renderMembers (m :: ms) ++ '}' :: rest)) := by
      simp [JSON.renderMembers]
    rw [e]
    exact parseMembers_more f depth k _ _ rest x (m :: ms) hsk h1 hsk2 h2
end

theorem quote_length (s : String) : 2 ≤ (quote s).length := by
  simp [quote]

mutual
theorem count_lt_render : ∀ (j : JSON), j.noNumbers = true → j.count + 1 ≤ j.render.length
  | .null, _ => by decide
  | .bool true, _ => by decide
  | .bool false, _ => by decide
  | .num _, hn => by simp [JSON.noNumbers] at hn
  | .str s, _ => by
    have := quote_length s
    simpa [JSON.count, JSON.render] using this
  | .arr xs, hn => by
    have := countList_le_render xs (by simpa [JSON.noNumbers] using hn)
    simp only [JSON.count, JSON.render, List.length_cons, List.length_append, List.length_nil]
    omega
  | .obj ms, hn => by
    have := countMembers_le_render ms (by simpa [JSON.noNumbers] using hn)
    simp only [JSON.count, JSON.render, List.length_cons, List.length_append, List.length_nil]
    omega
theorem countList_le_render : ∀ (xs : List JSON), JSON.noNumbersList xs = true →
    JSON.countList xs ≤ (JSON.renderElems xs).length
  | [], _ => by simp [JSON.countList, JSON.renderElems]
  | [x], hn => by
    have := count_lt_render x (by simpa [JSON.noNumbersList] using hn)
    simp only [JSON.countList, JSON.renderElems]
    omega
  | x :: y :: ys, hn => by
    rw [JSON.noNumbersList, Bool.and_eq_true] at hn
    have h1 := count_lt_render x hn.1
    have h2 := countList_le_render (y :: ys) hn.2
    rw [JSON.countList, JSON.renderElems]
    simp only [List.length_cons, List.length_append]
    omega
theorem countMembers_le_render : ∀ (ms : List (String × JSON)),
    JSON.noNumbersMembers ms = true →
    JSON.countMembers ms ≤ (JSON.renderMembers ms).length
  | [], _ => by simp [JSON.countMembers, JSON.renderMembers]
  | [(k, x)], hn => by
    have := count_lt_render x (by simpa [JSON.noNumbersMembers] using hn)
    simp only [JSON.countMembers, JSON.renderMembers, List.length_cons, List.length_append]
    omega
  | (k, x) :: m :: ms, hn => by
    rw [JSON.noNumbersMembers, Bool.and_eq_true] at hn
    have h1 := count_lt_render x hn.1
    have h2 := countMembers_le_render (m :: ms) hn.2
    rw [JSON.countMembers, JSON.renderMembers]
    simp only [List.length_cons, List.length_append]
    omega
end

/-- Reading back the text written for a value without numbers, nested no deeper
than the scanner allows, gives the value. -/
theorem parseJSON_render (j : JSON) (hn : j.noNumbers = true)
    (hd : j.nesting ≤ maxNestingDepth) :
    parseJSON (String.mk j.render) = some j := by
  have hc := count_lt_render j hn
  have hp := parse_render j (j.render.length + 1) 0 [] hn (by omega) (by omega)
  simp only [List.append_nil] at hp
  have hs := skipSpace_render j [] hn
  simp only [List.append_nil] at hs
  simp [parseJSON, hs, hp, skipSpace]

theorem noNumbers_strs (l : List (String × String)) :
    JSON.noNumbersMembers (l.map (fun kv => (kv.1, JSON.str kv.2))) = true := by
  induction l with
  | nil => rfl
  | cons kv l ih => simp [JSON.noNumbersMembers, JSON.noNumbers, ih]

mutual
theorem noNumbers_encode : ∀ n : Node, (Node.encode n).noNumbers = true
  | .text s => rfl
  | .element tag attrs [] => by
    by_cases ha : attrs = []
    · subst ha; rfl
    · simp [Node.encode, ha, JSON.noNumbers, JSON.noNumbersMembers, noNumbers_strs]
  | .element tag attrs (c :: cs) => by
    have hc := noNumbers_encode c
    have hcs := noNumbersList_encode cs
    by_cases ha : attrs = []
    · subst ha
      simp [Node.encode, JSON.noNumbers, JSON.noNumbersMembers, JSON.noNumbersList, hc, hcs]
    · simp [Node.encode, ha, JSON.noNumbers, JSON.noNumbersMembers, JSON.noNumbersList,
        noNumbers_strs, hc, hcs]
theorem noNumbersList_encode : ∀ ns : List Node,
    JSON.noNumbersList (Node.encodeList ns) = true
  | [] => rfl
  | n :: ns => by
    simp [Node.encodeList, JSON.noNumbersList, noNumbers_encode n, noNumbersList_encode ns]
end

theorem parseJSON_Marshal (T : List Node)
    (hd : (encodeNodes (some T)).nesting ≤ maxNestingDepth) :
    parseJSON (Marshal (some T)) = some (encodeNodes (some T)) :=
  parseJSON_render _ (by simp [encodeNodes, JSON.noNumbers, noNumbersList_encode]) hd

/-! ## Decoding content nodes -/

theorem decodeElems_iface : ∀ (xs : List JSON) (cur : List GoValue),
    decodeElems .iface cur xs = JSON.toIfaceList xs := by
  intro xs
  induction xs with
  | nil => intro cur; simp [decodeElems, JSON.toIfaceList]
  | cons x xs ih =>
    intro cur
    simp only [decodeElems, decodeValue, JSON.toIfaceList, ih]

theorem decode_content_eq (cur : GoValue) (xs : List JSON) :
    decodeValue (.slice .iface) cur (.arr xs)
      = match JSON.toIfaceList xs with
        | .error err => .error err
        | .ok vs => .ok (.slice vs) := by
  cases h : JSON.toIfaceList xs <;> simp only [decodeValue, decodeElems_iface, h]

mutual
theorem isOk_toIface : ∀ j : JSON, isOk (JSON.toIface j) = j.numbersInRange
  | .null => rfl
  | .bool _ => rfl
  | .num n => by
    simp only [JSON.toIface, JSON.numbersInRange]
    cases n.float64InRange <;> rfl
  | .str _ => rfl
  | .arr xs => by
    have := isOk_toIfaceList xs
    simp only [JSON.toIface, JSON.numbersInRange]
    cases h : JSON.toIfaceList xs <;> simp [h, isOk] at this ⊢ <;> exact this
  | .obj ms => by
    have := isOk_toIfaceMembers ms
    simp only [JSON.toIface, JSON.numbersInRange]
    cases h : JSON.toIfaceMembers ms <;> simp [h, isOk] at this ⊢ <;> exact this
theorem isOk_toIfaceList : ∀ xs : List JSON,
    isOk (JSON.toIfaceList xs) = JSON.numbersInRangeList xs
  | [] => rfl
  | x :: xs => by
    have h1 := isOk_toIface x
    have h2 := isOk_toIfaceList xs
    simp only [JSON.toIfaceList, JSON.numbersInRangeList]
    cases hx : JSON.toIface x <;> cases hxs : JSON.toIfaceList xs <;>
      simp_all [isOk]
theorem isOk_toIfaceMembers : ∀ ms : List (String × JSON),
    isOk (JSON.toIfaceMembers ms) = JSON.numbersInRangeMembers ms
  | [] => rfl
  | (k, x) :: ms => by
    have h1 := isOk_toIface x
    have h2 := isOk_toIfaceMembers ms
    simp only [JSON.toIfaceMembers, JSON.numbersInRangeMembers]
    cases hx : JSON.toIface x <;> cases hxs : JSON.toIfaceMembers ms <;>
      simp_all [isOk]
end

theorem toIfaceList_ok : ∀ (xs : List JSON) (vs : List GoValue),
    JSON.toIfaceList xs = .ok vs →
      vs.length = xs.length
      ∧ ∀ (i : Nat) (j : JSON), xs[i]? = some j →
          ∃ w, vs[i]? = some w ∧ JSON.toIface j = .ok w := by
  intro xs
  induction xs with
  | nil =>
    intro vs h
    simp only [JSON.toIfaceList, Except.ok.injEq] at h
    subst h
    exact ⟨rfl, fun i j hi => by simp at hi⟩
  | cons x xs ih =>
    intro vs h
    simp only [JSON.toIfaceList] at h
    cases hx : JSON.toIface x with
    | error e => simp [hx] at h
    | ok v =>
      cases hxs : JSON.toIfaceList xs with
      | error e => simp [hx, hxs] at h
      | ok ws =>
        simp only [hx, hxs, Except.ok.injEq] at h
        subst h
        obtain ⟨hl, hel⟩ := ih ws hxs
        refine ⟨by simp [hl], ?_⟩
        intro i j hi
        cases i with
        | zero =>
          simp only [List.getElem?_cons_zero, Option.some.injEq] at hi
          subst hi
          exact ⟨v, by simp, hx⟩
        | succ i =>
          simp only [List.getElem?_cons_succ] at hi
          obtain ⟨w, hw, hj⟩ := hel i j hi
          exact ⟨w, by simpa using hw, hj⟩

theorem decodedKind_toIface (j : JSON) (w : GoValue) (h : JSON.toIface j = .ok w) :
    decodedKind j w := by
  cases j with
  | null => simp only [JSON.toIface, Except.ok.injEq] at h; exact h.symm
  | bool b => simp only [JSON.toIface, Except.ok.injEq] at h; exact h.symm
  | num n =>
    simp only [JSON.toIface] at h
    by_cases hr : n.float64InRange = true
    · simp only [hr, if_true, Except.ok.injEq] at h; exact h.symm
    · simp [hr] at h
  | str s => simp only [JSON.toIface, Except.ok.injEq] at h; exact h.symm
  | arr xs =>
    simp only [JSON.toIface] at h
    cases hxs : JSON.toIfaceList xs with
    | error e => simp [hxs] at h
    | ok vs =>
      simp only [hxs, Except.ok.injEq] at h
      exact ⟨vs, h.symm, (toIfaceList_ok xs vs hxs).1⟩
  | obj ms =>
    simp only [JSON.toIface] at h
    cases hms : JSON.toIfaceMembers ms with
    | error e => simp [hms] at h
    | ok kvs =>
      simp only [hms, Except.ok.injEq] at h
      exact ⟨_, h.symm⟩

theorem toGoValue_ne_map (n : Node) (kvs : List (String × GoValue)) :
    n.toGoValue ≠ .map kvs := by
  cases n with
  | text s => simp [Node.toGoValue]
  | element tag attrs children =>
    intro h
    cases children <;> simp [Node.toGoValue] at h

/-- C2, counterexample: `GetPage` on a response whose content array holds a number,
a boolean, `null`, an array and an object returns the page without error, the
object decoded as a map. -/
theorem number_bool_null_array_decode :
    (Client.mk "" (fun _ _ => .ok
        "\x7b\"ok\":true,\"result\":\x7b\"content\":[5,true,null,[],\x7b\"tag\":\"p\"\x7d]\x7d\x7d")).GetPage
      "p" none
      = (.ptr (.struct [.str "", .str "", .str "", .str "", .str "", .str "", .str "",
          .slice [.float64 ⟨false, 5, [], none⟩, .bool true, .nil, .slice [],
            .map [("tag", .str "p")]],
          .int 0, .bool false]), none) := rfl

theorem float64Bound_eq : float64Bound = 2 ^ 1024 - 2 ^ 970 := by
  norm_num [float64Bound]

theorem toIfaceMembers_strs (l : List (String × String)) :
    JSON.toIfaceMembers (l.map (fun kv => (kv.1, JSON.str kv.2)))
      = .ok (l.map (fun kv => (kv.1, GoValue.str kv.2))) := by
  induction l with
  | nil => rfl
  | cons kv l ih => simp [JSON.toIfaceMembers, JSON.toIface, ih]

theorem toIface_attrs (attrs : List (String × String)) :
    JSON.toIface (.obj ((mapOfList attrs).map (fun kv => (kv.1, JSON.str kv.2))))
      = .ok (.map ((mapOfList attrs).map (fun kv => (kv.1, GoValue.str kv.2)))) := by
  simp only [JSON.toIface, toIfaceMembers_strs]
  rw [mapOfList_of_sorted _ (keysSorted_map _ _ (keysSorted_mapOfList attrs))]

mutual
theorem toIface_encode : ∀ n : Node, JSON.toIface n.encode = .ok n.generic
  | .text s => rfl
  | .element tag attrs [] => by
    by_cases ha : attrs = []
    · subst ha; rfl
    · have hA := toIface_attrs attrs
      simp only [JSON.toIface] at hA
      simp only [Node.encode, Node.generic, ha, if_false, JSON.toIface, JSON.toIfaceMembers,
        List.cons_append, List.nil_append, List.append_nil, hA]
      rfl
  | .element tag attrs (c :: cs) => by
    have hc := toIface_encode c
    have hcs := toIfaceList_encode cs
    by_cases ha : attrs = []
    · subst ha
      simp only [Node.encode, Node.generic, if_true, JSON.toIface, JSON.toIfaceMembers,
        JSON.toIfaceList, List.cons_append, List.nil_append, hc, hcs]
      rfl
    · have hA := toIface_attrs attrs
      simp only [JSON.toIface] at hA
      simp only [Node.encode, Node.generic, ha, if_false, JSON.toIface, JSON.toIfaceMembers,
        JSON.toIfaceList, List.cons_append, List.nil_append, hA, hc, hcs]
      rfl
theorem toIfaceList_encode : ∀ ns : List Node,
    JSON.toIfaceList (Node.encodeList ns) = .ok (Node.genericList ns)
  | [] => rfl
  | n :: ns => by
    simp only [Node.encodeList, Node.genericList, JSON.toIfaceList, toIface_encode n,
      toIfaceList_encode ns]
end

theorem genericList_eq_map (ns : List Node) : Node.genericList ns = ns.map Node.generic := by
  induction ns with
  | nil => rfl
  | cons n ns ih => simp [Node.genericList, ih]

theorem toGoValueList_eq_map (ns : List Node) :
    Node.toGoValueList ns = ns.map Node.toGoValue := by
  induction ns with
  | nil => rfl
  | cons n ns ih => simp [Node.toGoValueList, ih]

/-- C1, amended: decoding the JSON value that encodes a sequence of content nodes
into `[]Node` succeeds and yields, in the same order, each text as the same
string and each `NodeElement` as a `map[string]interface{}` with the keys `tag`,
`attrs` (when it has attributes) and `children` (when it has children, decoded
the same way); the same holds for unmarshalling the marshalled text when the
encoding nests no deeper than the scanner's limit; a text comes back equal to
itself, and the map an element comes back as is never equal to a `NodeElement`. -/
theorem decode_encode_nodes (cur : GoValue) (T : List Node) :
    decodeValue (.slice .iface) cur (encodeNodes (some T)) = .ok (.slice (T.map Node.generic))
    ∧ ((encodeNodes (some T)).nesting ≤ maxNestingDepth →
        Unmarshal (Marshal (some T)) (.slice .iface) cur
          = .ok (.slice (T.map Node.generic)))
    ∧ (∀ s, (Node.text s).generic = (Node.text s).toGoValue)
    ∧ (∀ tag attrs children n,
        (Node.element tag attrs children).generic ≠ Node.toGoValue n) := by
  have hval : decodeValue (.slice .iface) cur (encodeNodes (some T))
      = .ok (.slice (T.map Node.generic)) := by
    simp only [encodeNodes, decode_content_eq, toIfaceList_encode, genericList_eq_map]
  refine ⟨hval, ?_, fun s => rfl, ?_⟩
  · intro hd
    simp only [Unmarshal, parseJSON_Marshal T hd]
    exact hval
  · intro tag attrs children n h
    cases children with
    | nil =>
      rw [Node.generic] at h
      exact toGoValue_ne_map n _ h.symm
    | cons c cs =>
      rw [Node.generic] at h
      exact toGoValue_ne_map n _ h.symm

/-- C1, witness: the text marshalled for `["hello world"]` is unmarshalled to the
same single string. -/
theorem decode_encode_nodes_witness :
    Unmarshal (Marshal (some [Node.text "hello world"])) (.slice .iface) .nil
      = .ok (.slice [.str "hello world"]) :=
  (decode_encode_nodes .nil [Node.text "hello world"]).2.1 (by decide)

/-- C1, counterexample: unmarshalling the text marshalled for
`[NodeElement{Tag:"p", Children:["hello world"]}]` yields a map with the keys
`children` and `tag`, not the `NodeElement`. -/
theorem element_roundtrip_counterexample :
    Unmarshal (Marshal (some [Node.element "p" [] [Node.text "hello world"]]))
        (.slice .iface) .nil
      = .ok (.slice [.map [("children", .slice [.str "hello world"]), ("tag", .str "p")]])
    ∧ Unmarshal (Marshal (some [Node.element "p" [] [Node.text "hello world"]]))
        (.slice .iface) .nil
      ≠ .ok (.slice ([Node.element "p" [] [Node.text "hello world"]].map Node.toGoValue)) := by
  refine ⟨rfl, ?_⟩
  have h : Unmarshal (Marshal (some [Node.element "p" [] [Node.text "hello world"]]))
        (.slice .iface) .nil
      = .ok (.slice [.map [("children", .slice [.str "hello world"]), ("tag", .str "p")]]) := rfl
  rw [h]
  intro e
  simp [Node.toGoValue] at e

/-! ## Decoding envelopes -/

theorem findFieldBy_some {p : String → Bool} :
    ∀ {fs : List (String × GoType)} {i : Nat} {t : GoType},
      findFieldBy p fs = some (i, t) → ∃ name, fs[i]? = some (name, t) ∧ p name = true := by
  intro fs
  induction fs with
  | nil => intro i t h; simp [findFieldBy] at h
  | cons f fs ih =>
    intro i t h
    unfold findFieldBy at h
    by_cases hp : p f.1 = true
    · simp only [hp, if_true, Option.some.injEq, Prod.mk.injEq] at h
      obtain ⟨rfl, rfl⟩ := h
      exact ⟨f.1, by simp, hp⟩
    · simp only [hp] at h
      cases hrec : findFieldBy p fs with
      | none => simp [hrec] at h
      | some r =>
        simp only [hrec, Bool.false_eq_true, if_false, Option.some.injEq, Prod.mk.injEq] at h
        obtain ⟨rfl, rfl⟩ := h
        obtain ⟨name, hn, hpn⟩ := @ih r.1 r.2 hrec
        exact ⟨name, by simpa using hn, hpn⟩

theorem findFieldBy_none {p : String → Bool} :
    ∀ {fs : List (String × GoType)}, findFieldBy p fs = none → ∀ f ∈ fs, p f.1 = false := by
  intro fs
  induction fs with
  | nil => intro _ f hf; simp at hf
  | cons g fs ih =>
    intro h f hf
    unfold findFieldBy at h
    by_cases hp : p g.1 = true
    · simp [hp] at h
    · simp only [hp, Bool.false_eq_true, if_false] at h
      cases hrec : findFieldBy p fs with
      | some r => simp [hrec] at h
      | none =>
        rcases List.mem_cons.mp hf with rfl | hf
        · simpa using hp
        · exact ih hrec f hf

theorem findField_some {fs : List (String × GoType)} {k : String} {i : Nat} {t : GoType}
    (h : findField fs k = some (i, t)) :
    ∃ name, fs[i]? = some (name, t) ∧ foldName name = foldName k := by
  unfold findField at h
  cases hex : findFieldBy (fun name => name == k) fs with
  | some r =>
    simp only [hex, Option.some.injEq] at h
    subst h
    obtain ⟨name, hn, hp⟩ := findFieldBy_some hex
    refine ⟨name, hn, ?_⟩
    have : name = k := by simpa using hp
    rw [this]
  | none =>
    simp only [hex] at h
    obtain ⟨name, hn, hp⟩ := findFieldBy_some h
    exact ⟨name, hn, by simpa using hp⟩

theorem findField_none {fs : List (String × GoType)} {k : String}
    (h : findField fs k = none) : ∀ f ∈ fs, foldName f.1 ≠ foldName k := by
  unfold findField at h
  cases hex : findFieldBy (fun name => name == k) fs with
  | some r => simp [hex] at h
  | none =>
    simp only [hex] at h
    intro f hf
    have := findFieldBy_none h f hf
    simpa using this

theorem member_cons (k : String) (x : JSON) (ms : List (String × JSON)) (name : String) :
    member ((k, x) :: ms) name
      = if foldName k = foldName name then some x else member ms name := by
  unfold member
  by_cases h : foldName k = foldName name
  · simp [List.find?, h]
  · have hb : (foldName k == foldName name) = false := by simpa using h
    simp [List.find?, hb, h]

theorem member_eq_none_of_not_mem (ms : List (String × JSON)) (name : String)
    (h : foldName name ∉ ms.map (fun m => foldName m.1)) : member ms name = none := by
  induction ms with
  | nil => rfl
  | cons m ms ih =>
    obtain ⟨k, x⟩ := m
    simp only [List.map_cons, List.mem_cons, not_or] at h
    rw [member_cons, if_neg (fun e => h.1 e.symm)]
    exact ih h.2

theorem index_eq_of_fold_eq {fs : List (String × GoType)}
    (hfs : (fs.map (fun f => foldName f.1)).Nodup) {i j : Nat} {a b : String × GoType}
    (hi : fs[i]? = some a) (hj : fs[j]? = some b) (h : foldName a.1 = foldName b.1) : i = j := by
  obtain ⟨hi', hia⟩ := List.getElem?_eq_some_iff.mp hi
  obtain ⟨hj', hjb⟩ := List.getElem?_eq_some_iff.mp hj
  have hli : i < (fs.map (fun f => foldName f.1)).length := by simpa using hi'
  have hlj : j < (fs.map (fun f => foldName f.1)).length := by simpa using hj'
  apply (@List.Nodup.getElem_inj_iff _ _ hfs i hli j hlj).mp
  simp [hia, hjb, h]

/-- Decoding an object with unique member names into a struct: every field is
decoded from the one member that names it, starting from its current value, and
fields that no member names keep their value. -/
theorem decodeMembers_unique (fs : List (String × GoType))
    (hfs : (fs.map (fun f => foldName f.1)).Nodup) :
    ∀ (ms : List (String × JSON)) (cur : List GoValue),
      (ms.map (fun m => foldName m.1)).Nodup → cur.length = fs.length →
      (∀ i name t j, fs[i]? = some (name, t) → member ms name = some j →
        ∃ v, decodeValue t (cur.getD i .nil) j = .ok v) →
      ∃ res, decodeMembers fs cur ms = .ok res ∧ res.length = fs.length ∧
        ∀ i name t, fs[i]? = some (name, t) →
          (member ms name = none → res[i]? = cur[i]?) ∧
          (∀ j, member ms name = some j →
            decodeValue t (cur.getD i .nil) j = .ok (res.getD i .nil)) := by
  intro ms
  induction ms with
  | nil =>
    intro cur _ hlen _
    refine ⟨cur, by simp [decodeMembers], hlen, ?_⟩
    intro i name t _
    exact ⟨fun _ => rfl, fun j hj => by simp [member] at hj⟩
  | cons m ms ih =>
    obtain ⟨k, x⟩ := m
    intro cur hnd hlen hdec
    simp only [List.map_cons, List.nodup_cons] at hnd
    obtain ⟨hk, hnd'⟩ := hnd
    cases hff : findField fs k with
    | none =>
      have hne := findField_none hff
      have hmem : ∀ (i : Nat) (name : String) (t : GoType), fs[i]? = some (name, t) →
          member ((k, x) :: ms) name = member ms name := by
        intro i name t hi
        have := hne (name, t) (List.getElem?_mem hi)
        rw [member_cons, if_neg (fun e => this e.symm)]
      obtain ⟨res, hres, hl, hfields⟩ := ih cur hnd' hlen (by
        intro i name t j hi hj
        exact hdec i name t j hi (by rw [hmem i name t hi]; exact hj))
      refine ⟨res, by simp only [decodeMembers, hff, hres], hl, ?_⟩
      intro i name t hi
      rw [hmem i name t hi]
      exact hfields i name t hi
    | some r =>
      obtain ⟨i0, t0⟩ := r
      obtain ⟨name0, h0, hfold⟩ := findField_some hff
      have hi0 : i0 < cur.length := by
        rw [hlen]; exact (List.getElem?_eq_some_iff.mp h0).1
      have hx : member ((k, x) :: ms) name0 = some x := by
        rw [member_cons, if_pos hfold.symm]
      obtain ⟨v, hv⟩ := hdec i0 name0 t0 x h0 hx
      have hmem0 : member ms name0 = none :=
        member_eq_none_of_not_mem ms name0 (by rw [hfold]; exact hk)
      have hother : ∀ (i : Nat) (name : String) (t : GoType), fs[i]? = some (name, t) → i ≠ i0 →
          member ((k, x) :: ms) name = member ms name := by
        intro i name t hi hne
        rw [member_cons, if_neg]
        intro e
        exact hne (index_eq_of_fold_eq hfs hi h0 (by simp [← e, hfold]))
      have hsame : ∀ (i : Nat) (name : String) (t : GoType), fs[i]? = some (name, t) →
          i = i0 → name = name0 ∧ t = t0 := by
        intro i name t hi e
        subst e
        rw [h0] at hi
        simpa [eq_comm] using hi
      obtain ⟨res, hres, hl, hfields⟩ := ih (cur.set i0 v) hnd' (by simpa using hlen) (by
        intro i name t j hi hj
        have hne : i ≠ i0 := by
          intro e
          obtain ⟨rfl, _⟩ := hsame i name t hi e
          rw [hmem0] at hj
          exact Option.noConfusion hj
        have := hdec i name t j hi (by rw [hother i name t hi hne]; exact hj)
        simpa [List.getD_eq_getElem?_getD, List.getElem?_set_ne (Ne.symm hne)] using this)
      refine ⟨res, by simp only [decodeMembers, hff, hv, hres], hl, ?_⟩
      intro i name t hi
      by_cases e : i = i0
      · obtain ⟨rfl, rfl⟩ := hsame i name t hi e
        subst e
        have hr := (hfields i name t hi).1 hmem0
        refine ⟨fun hn => by rw [hx] at hn; exact Option.noConfusion hn, ?_⟩
        intro j hj
        rw [hx] at hj
        obtain rfl := Option.some.inj hj
        have : res.getD i GoValue.nil = v := by
          simp [List.getD_eq_getElem?_getD, hr, List.getElem?_set_self hi0]
        rw [this]; exact hv
      · rw [hother i name t hi e]
        have hr := hfields i name t hi
        constructor
        · intro hn
          rw [hr.1 hn, List.getElem?_set_ne (Ne.symm e)]
        · intro j hj
          have := hr.2 j hj
          simpa [List.getD_eq_getElem?_getD, List.getElem?_set_ne (Ne.symm e)] using this

theorem zeroFields_getElem? :
    ∀ (fs : List (String × GoType)) (i : Nat) (name : String) (t : GoType),
      fs[i]? = some (name, t) → (GoType.zeroFields fs)[i]? = some (GoType.zero t) := by
  intro fs
  induction fs with
  | nil => intro i name t h; simp at h
  | cons f fs ih =>
    obtain ⟨n, ty⟩ := f
    intro i name t h
    cases i with
    | zero =>
      simp only [List.getElem?_cons_zero, Option.some.injEq, Prod.mk.injEq] at h
      obtain ⟨_, rfl⟩ := h
      simp [GoType.zeroFields]
    | succ i =>
      simp only [List.getElem?_cons_succ] at h
      simpa [GoType.zeroFields] using ih i name t h

theorem zeroFields_length (fs : List (String × GoType)) :
    (GoType.zeroFields fs).length = fs.length := by
  induction fs with
  | nil => rfl
  | cons f fs ih => obtain ⟨n, ty⟩ := f; simp [GoType.zeroFields, ih]

theorem uniqueKeys_iff (ms : List (String × JSON)) :
    uniqueKeys ms = true ↔ (ms.map (fun m => foldName m.1)).Nodup := by
  simp [uniqueKeys]

/-- Decoding an object of the payload's shape into a fresh payload struct
succeeds, and gives every field the value of the member that names it. -/
theorem decode_payload (fs : List (String × GoType))
    (hfs : (fs.map (fun f => foldName f.1)).Nodup) (r : List (String × JSON))
    (hshape : payloadShape fs r = true) :
    ∃ vs, decodeMembers fs (GoType.zeroFields fs) r = .ok vs ∧ vs.length = fs.length ∧
      ∀ (i : Nat) (name : String) (t : GoType), fs[i]? = some (name, t) →
        (member r name = none → vs[i]? = some (GoType.zero t)) ∧
        (∀ j, member r name = some j →
          ∃ v, vs[i]? = some v ∧ decodeValue t (GoType.zero t) j = .ok v) := by
  simp only [payloadShape, Bool.and_eq_true, List.all_eq_true] at hshape
  obtain ⟨hu, hall⟩ := hshape
  have hz : ∀ (i : Nat) (name : String) (t : GoType), fs[i]? = some (name, t) →
      (GoType.zeroFields fs).getD i .nil = GoType.zero t := by
    intro i name t hi
    simp [List.getD_eq_getElem?_getD, zeroFields_getElem? fs i name t hi]
  obtain ⟨vs, hvs, hl, hfields⟩ := decodeMembers_unique fs hfs r (GoType.zeroFields fs)
    ((uniqueKeys_iff r).mp hu) (zeroFields_length fs) (by
      intro i name t j hi hj
      have := hall (name, t) (List.getElem?_mem hi)
      simp only [hj] at this
      rw [hz i name t hi]
      cases hd : decodeValue t (GoType.zero t) j with
      | ok v => exact ⟨v, rfl⟩
      | error e => simp [hd, isOk] at this)
  refine ⟨vs, hvs, hl, ?_⟩
  intro i name t hi
  obtain ⟨h1, h2⟩ := hfields i name t hi
  have hlt : i < vs.length := by
    rw [hl]; exact (List.getElem?_eq_some_iff.mp hi).1
  refine ⟨fun hn => ?_, fun j hj => ?_⟩
  · rw [h1 hn]; exact zeroFields_getElem? fs i name t hi
  · have := h2 j hj
    rw [hz i name t hi] at this
    refine ⟨vs.getD i .nil, ?_, this⟩
    simp [List.getD_eq_getElem?_getD, List.getElem?_eq_getElem hlt]

/-- What the shared tail of the API methods returns for a body whose `error` and
`result` members are well formed and whose `ok` member is a boolean or absent. -/
theorem unwrap_envelope (result : List (String × GoType))
    (hnames : (result.map (fun f => foldName f.1)).Nodup)
    (data : String) (ms : List (String × JSON))
    (hparse : parseJSON data = some (.obj ms))
    (hrest : envelopeRest result ms = true)
    (hok : member ms "ok" = none ∨ ∃ b, member ms "ok" = some (.bool b)) :
    ∃ payload,
      unwrap result (.ok data)
        = (if envelopeOK ms then (payload, none)
           else (.nil, some (.errorString (envelopeError ms))))
      ∧ (member ms "result" = none → payload = .nil)
      ∧ (∀ r, member ms "result" = some (.obj r) →
          ∃ vs, payload = .ptr (.struct vs)
            ∧ decodeMembers result (GoType.zeroFields result) r = .ok vs) := by
  simp only [envelopeRest, Bool.and_eq_true] at hrest
  obtain ⟨⟨hu, herr⟩, hres⟩ := hrest
  have hrn : ((response result).map (fun f => foldName f.1)).Nodup := by
    simp only [response, List.map_cons, List.map_nil]
    decide
  obtain ⟨res, hdec, hl, hfields⟩ := decodeMembers_unique (response result) hrn ms
    [.bool false, .str "", .nil] ((uniqueKeys_iff ms).mp hu) (by simp [response]) (by
      intro i name t j hi hj
      match i with
      | 0 =>
        simp only [response, List.getElem?_cons_zero, Option.some.injEq, Prod.mk.injEq] at hi
        obtain ⟨rfl, rfl⟩ := hi
        rcases hok with h | ⟨b, h⟩
        · rw [h] at hj; exact Option.noConfusion hj
        · rw [h] at hj; obtain rfl := Option.some.inj hj
          exact ⟨.bool b, by simp [decodeValue]⟩
      | 1 =>
        simp only [response, List.getElem?_cons_succ, List.getElem?_cons_zero,
          Option.some.injEq, Prod.mk.injEq] at hi
        obtain ⟨rfl, rfl⟩ := hi
        rw [hj] at herr
        cases j <;> simp at herr
        rename_i m
        exact ⟨.str m, by simp [decodeValue]⟩
      | 2 =>
        simp only [response, List.getElem?_cons_succ, List.getElem?_cons_zero,
          Option.some.injEq, Prod.mk.injEq] at hi
        obtain ⟨rfl, rfl⟩ := hi
        rw [hj] at hres
        cases j <;> simp at hres
        rename_i r
        obtain ⟨vs, hvs, _⟩ := decode_payload result hnames r hres
        exact ⟨.ptr (.struct vs), by simp [decodeValue, hvs]⟩
      | n + 3 => simp [response] at hi)
  have h0 := hfields 0 "ok" .bool (by simp [response])
  have h1 := hfields 1 "error" .string (by simp [response])
  have h2 := hfields 2 "result" (.ptr result) (by simp [response])
  have hunwrap : unwrap result (.ok data)
      = (if !(res.getD 0 .nil).asBool then
          (.nil, some (.errorString (res.getD 1 .nil).asString))
         else (res.getD 2 .nil, none)) := by
    simp only [unwrap, Unmarshal, hparse, GoType.zero, decodeValue, GoValue.fieldValues,
      response, GoType.zeroFields] at hdec ⊢
    simp only [hdec, GoValue.fieldValues]
  have hflag : (res.getD 0 .nil).asBool = envelopeOK ms := by
    rcases hok with h | ⟨b, h⟩
    · have := h0.1 h
      simp [List.getD_eq_getElem?_getD, this, envelopeOK, h, GoValue.asBool]
    · have := h0.2 _ h
      simp only [decodeValue, Except.ok.injEq] at this
      rw [← this]
      simp [envelopeOK, h, GoValue.asBool]
  have hmsg : (res.getD 1 .nil).asString = envelopeError ms := by
    cases he : member ms "error" with
    | none =>
      have := h1.1 he
      simp [List.getD_eq_getElem?_getD, this, envelopeError, he, GoValue.asString]
    | some j =>
      rw [he] at herr
      cases j <;> simp at herr
      have := h1.2 _ he
      simp only [decodeValue, Except.ok.injEq] at this
      rw [← this]
      simp [envelopeError, he, GoValue.asString]
  refine ⟨res.getD 2 .nil, ?_, ?_, ?_⟩
  · rw [hunwrap, hflag, hmsg]
    cases envelopeOK ms <;> simp
  · intro hn
    have := h2.1 hn
    simp [List.getD_eq_getElem?_getD, this]
  · intro r hr
    have := h2.2 _ hr
    simp only [decodeValue] at this
    cases hd : decodeMembers result (GoType.zeroFields result) r with
    | error e => simp [hd] at this
    | ok vs =>
      simp [hd] at this
      exact ⟨vs, by simpa using this.symm, rfl⟩

theorem result_names_nodup (c : Call) : (c.result.map (fun f => foldName f.1)).Nodup := by
  cases c <;> simp only [Call.result] <;> decide

theorem call_eq_unwrap (client : Client) (c : Call) (data : String)
    (hbody : ∀ meth params, client.httpClient meth params = .ok data) :
    client.call c = unwrap c.result (.ok data) := by
  cases c <;>
    simp only [Client.call, Client.CreateAccount, Client.EditAccountInfo, Client.GetAccountInfo,
      Client.RevokeAccessToken, Client.CreatePage, Client.EditPage, Client.GetPage,
      Client.GetPageList, Client.GetViews, Client.post, hbody, Call.result]

theorem validEnvelope_iff (result : List (String × GoType)) (ms : List (String × JSON)) :
    validEnvelope result ms = true
      ↔ (∃ b, member ms "ok" = some (.bool b)) ∧ envelopeRest result ms = true := by
  unfold validEnvelope
  cases h : member ms "ok" with
  | none => simp
  | some j => cases j <;> simp

/-- C3: for each of the nine API methods, if the body is a valid envelope whose `ok`
is false and whose `error` is the string `m`, with or without a `result` member,
the method returns a nil payload and the error `errors.New(m)`. -/
theorem envelope_failure (client : Client) (c : Call) (data : String)
    (ms : List (String × JSON)) (m : String)
    (hbody : ∀ meth params, client.httpClient meth params = .ok data)
    (hparse : parseJSON data = some (.obj ms))
    (hvalid : validEnvelope c.result ms = true)
    (hok : member ms "ok" = some (.bool false))
    (herr : member ms "error" = some (.str m)) :
    client.call c = (.nil, some (.errorString m)) := by
  obtain ⟨_, hrest⟩ := (validEnvelope_iff _ _).mp hvalid
  obtain ⟨payload, h, _, _⟩ := unwrap_envelope c.result (result_names_nodup c) data ms hparse
    hrest (Or.inr ⟨false, hok⟩)
  rw [call_eq_unwrap client c data hbody, h]
  simp [envelopeOK, envelopeError, hok, herr]

/-- C3, witness: `GetViews` on `{"ok":false,"error":"PAGE_NOT_FOUND","result":{"views":5}}`. -/
theorem envelope_failure_witness :
    (Client.mk "" (fun _ _ => .ok
        "\x7b\"ok\":false,\"error\":\"PAGE_NOT_FOUND\",\"result\":\x7b\"views\":5\x7d\x7d")).call
      (.GetViews "p" 2020 1 1 none) = (.nil, some (.errorString "PAGE_NOT_FOUND")) :=
  envelope_failure _ _ _
    [("ok", .bool false), ("error", .str "PAGE_NOT_FOUND"),
     ("result", .obj [("views", .num ⟨false, 5, [], none⟩)])] _
    (fun _ _ => rfl) rfl (by decide) rfl rfl

/-- C5: for each of the nine API methods, if the body is a valid envelope whose `ok`
is true, the returned error is nil, and the returned payload is nil if and only
if the envelope has no `result` member. -/
theorem absent_result (client : Client) (c : Call) (data : String)
    (ms : List (String × JSON))
    (hbody : ∀ meth params, client.httpClient meth params = .ok data)
    (hparse : parseJSON data = some (.obj ms))
    (hvalid : validEnvelope c.result ms = true)
    (hok : member ms "ok" = some (.bool true)) :
    (client.call c).2 = none
      ∧ ((client.call c).1 = .nil ↔ member ms "result" = none) := by
  obtain ⟨_, hrest⟩ := (validEnvelope_iff _ _).mp hvalid
  obtain ⟨payload, h, hnone, hsome⟩ := unwrap_envelope c.result (result_names_nodup c) data ms
    hparse hrest (Or.inr ⟨true, hok⟩)
  rw [call_eq_unwrap client c data hbody, h]
  simp only [envelopeOK, hok, if_true, true_and]
  constructor
  · intro hp
    cases hr : member ms "result" with
    | none => rfl
    | some j =>
      simp only [envelopeRest, Bool.and_eq_true, hr] at hrest
      cases j <;> simp at hrest
      rename_i r
      obtain ⟨vs, hvs, _⟩ := hsome r hr
      rw [hvs] at hp
      exact GoValue.noConfusion hp
  · exact hnone

/-- C5, witness: `GetAccountInfo` on `{"ok":true}` returns a nil payload and a nil
error. -/
theorem absent_result_witness :
    (Client.mk "" (fun _ _ => .ok "\x7b\"ok\":true\x7d")).call (.GetAccountInfo none)
      = (.nil, none) := by
  have h := absent_result (Client.mk "" (fun _ _ => .ok "\x7b\"ok\":true\x7d"))
    (.GetAccountInfo none) _ [("ok", .bool true)] (fun _ _ => rfl) rfl (by decide) rfl
  exact Prod.ext (h.2.mpr rfl) h.1

/-- A `result` member that is `null` is not a payload object: the decoder clears
the pointer, and the method returns a nil payload and a nil error. -/
theorem null_result_returns_nil :
    (Client.mk "" (fun _ _ => .ok "\x7b\"ok\":true,\"result\":null\x7d")).call
      (.GetAccountInfo none) = (.nil, none)
    ∧ validEnvelope Account [("ok", .bool true), ("result", .null)] = false :=
  ⟨rfl, by decide⟩

/-- C4: for each of the nine API methods, if the body is a valid envelope whose `ok`
is true and whose `result` is an object `r`, the method returns a nil error and a
non-nil pointer to a payload struct in which every field named by a member of `r`
holds the decoding of that member's value (a string field the string, an `int`
field the integer, a `bool` field the boolean) and every other field its zero
value. -/
theorem envelope_success (client : Client) (c : Call) (data : String)
    (ms r : List (String × JSON))
    (hbody : ∀ meth params, client.httpClient meth params = .ok data)
    (hparse : parseJSON data = some (.obj ms))
    (hvalid : validEnvelope c.result ms = true)
    (hok : member ms "ok" = some (.bool true))
    (hres : member ms "result" = some (.obj r)) :
    ∃ vs, client.call c = (.ptr (.struct vs), none) ∧ vs.length = c.result.length
      ∧ ∀ (i : Nat) (name : String) (t : GoType), c.result[i]? = some (name, t) →
          (member r name = none → vs[i]? = some (GoType.zero t))
          ∧ (∀ j, member r name = some j →
              ∃ v, vs[i]? = some v ∧ decodeValue t (GoType.zero t) j = .ok v)
          ∧ (∀ s, t = .string → member r name = some (.str s) → vs[i]? = some (.str s))
          ∧ (∀ n k, t = .int → member r name = some (.num n) → n.toInt64 = some k →
              vs[i]? = some (.int k))
          ∧ (∀ b, t = .bool → member r name = some (.bool b) → vs[i]? = some (.bool b)) := by
  obtain ⟨_, hrest⟩ := (validEnvelope_iff _ _).mp hvalid
  obtain ⟨payload, h, _, hsome⟩ := unwrap_envelope c.result (result_names_nodup c) data ms
    hparse hrest (Or.inr ⟨true, hok⟩)
  obtain ⟨vs, hvs, hdec⟩ := hsome r hres
  have hshape : payloadShape c.result r = true := by
    simp only [envelopeRest, Bool.and_eq_true, hres] at hrest
    exact hrest.2
  obtain ⟨vs', hdec', hl, hfields⟩ := decode_payload c.result (result_names_nodup c) r hshape
  rw [hdec] at hdec'
  obtain rfl := Except.ok.inj hdec'
  refine ⟨vs, ?_, hl, ?_⟩
  · rw [call_eq_unwrap client c data hbody, h, hvs]
    simp [envelopeOK, hok]
  · intro i name t hi
    obtain ⟨h1, h2⟩ := hfields i name t hi
    refine ⟨h1, h2, ?_, ?_, ?_⟩
    · intro s ht hj
      subst ht
      obtain ⟨v, hv, hd⟩ := h2 _ hj
      simp only [decodeValue, Except.ok.injEq] at hd
      rw [hv, hd]
    · intro n k ht hj hk
      subst ht
      obtain ⟨v, hv, hd⟩ := h2 _ hj
      simp only [decodeValue, hk, Except.ok.injEq] at hd
      rw [hv, hd]
    · intro b ht hj
      subst ht
      obtain ⟨v, hv, hd⟩ := h2 _ hj
      simp only [decodeValue, Except.ok.injEq] at hd
      rw [hv, hd]

/-- C4, witness: `GetViews` on `{"ok":true,"result":{"views":5}}` returns
`PageViews{Views: 5}`. -/
theorem envelope_success_witness :
    (Client.mk "" (fun _ _ => .ok
        "\x7b\"ok\":true,\"result\":\x7b\"views\":5\x7d\x7d")).call
      (.GetViews "p" 2020 1 1 none) = (.ptr (.struct [.int 5]), none) := by
  obtain ⟨vs, h, hl, hf⟩ := envelope_success
    (Client.mk "" (fun _ _ => .ok "\x7b\"ok\":true,\"result\":\x7b\"views\":5\x7d\x7d"))
    (.GetViews "p" 2020 1 1 none) _
    [("ok", .bool true), ("result", .obj [("views", .num ⟨false, 5, [], none⟩)])]
    [("views", .num ⟨false, 5, [], none⟩)]
    (fun _ _ => rfl) rfl (by decide) rfl rfl
  have h5 := (hf 0 "views" .int rfl).2.2.2.1 ⟨false, 5, [], none⟩ 5 rfl rfl rfl
  have hv : vs = [.int 5] := by
    match vs, hl, h5 with
    | [v], _, h5 =>
      have : v = GoValue.int 5 := by simpa using h5
      rw [this]
  rw [h, hv]

/-- C6, amended: a body that is not valid JSON makes every API method return the
decoder's syntax error; a JSON object without an `ok` member, its `error` and
`result` members well formed, makes it return a nil payload and
`errors.New(error)`, the service error of an envelope with `ok` false. -/
theorem malformed_envelope (client : Client) (c : Call) (data : String)
    (hbody : ∀ meth params, client.httpClient meth params = .ok data) :
    (parseJSON data = none → client.call c = (.nil, some .syntaxError))
    ∧ (∀ ms, parseJSON data = some (.obj ms) → envelopeRest c.result ms = true →
        member ms "ok" = none →
        client.call c = (.nil, some (.errorString (envelopeError ms)))) := by
  constructor
  · intro hp
    rw [call_eq_unwrap client c data hbody]
    simp [unwrap, Unmarshal, hp]
  · intro ms hparse hrest hok
    obtain ⟨payload, h, _, _⟩ := unwrap_envelope c.result (result_names_nodup c) data ms
      hparse hrest (Or.inl hok)
    rw [call_eq_unwrap client c data hbody, h]
    simp [envelopeOK, hok]

/-- C6, witness: `not json` gives the syntax error, `{"error":"X"}` gives
`errors.New("X")`. -/
theorem malformed_envelope_witness :
    (Client.mk "" (fun _ _ => .ok "not json")).call .RevokeAccessToken
        = (.nil, some .syntaxError)
    ∧ (Client.mk "" (fun _ _ => .ok "\x7b\"error\":\"X\"\x7d")).call .RevokeAccessToken
        = (.nil, some (.errorString "X")) :=
  ⟨(malformed_envelope (Client.mk "" (fun _ _ => .ok "not json")) .RevokeAccessToken _
      (fun _ _ => rfl)).1 rfl,
   (malformed_envelope (Client.mk "" (fun _ _ => .ok "\x7b\"error\":\"X\"\x7d"))
      .RevokeAccessToken _ (fun _ _ => rfl)).2 [("error", .str "X")] rfl (by decide) rfl⟩

/-- C6, counterexample: `{}` makes `RevokeAccessToken` return `errors.New("")`,
exactly what `{"ok":false}` returns, and `{"error":"X"}` returns what
`{"ok":false,"error":"X"}` returns. -/
theorem missing_ok_is_service_error :
    (Client.mk "" (fun _ _ => .ok "\x7b\x7d")).call .RevokeAccessToken
        = (.nil, some (.errorString ""))
    ∧ (Client.mk "" (fun _ _ => .ok "\x7b\x7d")).call .RevokeAccessToken
        = (Client.mk "" (fun _ _ => .ok "\x7b\"ok\":false\x7d")).call .RevokeAccessToken
    ∧ (Client.mk "" (fun _ _ => .ok "\x7b\"error\":\"X\"\x7d")).call .RevokeAccessToken
        = (Client.mk "" (fun _ _ => .ok
            "\x7b\"ok\":false,\"error\":\"X\"\x7d")).call .RevokeAccessToken :=
  ⟨rfl, rfl, rfl⟩

/-! ## Errors of the decoder and content inside a response -/

mutual
theorem toIface_error : ∀ (j : JSON) (e : GoError),
    JSON.toIface j = .error e → e = .unmarshalTypeError
  | .null, e, h => by simp [JSON.toIface] at h
  | .bool _, e, h => by simp [JSON.toIface] at h
  | .num n, e, h => by
    simp only [JSON.toIface] at h
    split at h
    · exact Except.noConfusion h
    · exact (Except.error.inj h).symm
  | .str _, e, h => by simp [JSON.toIface] at h
  | .arr xs, e, h => by
    simp only [JSON.toIface] at h
    cases hx : JSON.toIfaceList xs with
    | error e' =>
      simp only [hx, Except.error.injEq] at h
      subst h
      exact toIfaceList_error xs e' hx
    | ok vs => simp [hx] at h
  | .obj ms, e, h => by
    simp only [JSON.toIface] at h
    cases hx : JSON.toIfaceMembers ms with
    | error e' =>
      simp only [hx, Except.error.injEq] at h
      subst h
      exact toIfaceMembers_error ms e' hx
    | ok vs => simp [hx] at h
theorem toIfaceList_error : ∀ (xs : List JSON) (e : GoError),
    JSON.toIfaceList xs = .error e → e = .unmarshalTypeError
  | [], e, h => by simp [JSON.toIfaceList] at h
  | x :: xs, e, h => by
    simp only [JSON.toIfaceList] at h
    cases hx : JSON.toIface x with
    | error e' =>
      simp only [hx, Except.error.injEq] at h
      subst h
      exact toIface_error x e' hx
    | ok v =>
      cases hxs : JSON.toIfaceList xs with
      | error e' =>
        simp only [hx, hxs, Except.error.injEq] at h
        subst h
        exact toIfaceList_error xs e' hxs
      | ok vs => simp [hx, hxs] at h
theorem toIfaceMembers_error : ∀ (ms : List (String × JSON)) (e : GoError),
    JSON.toIfaceMembers ms = .error e → e = .unmarshalTypeError
  | [], e, h => by simp [JSON.toIfaceMembers] at h
  | (k, x) :: ms, e, h => by
    simp only [JSON.toIfaceMembers] at h
    cases hx : JSON.toIface x with
    | error e' =>
      simp only [hx, Except.error.injEq] at h
      subst h
      exact toIface_error x e' hx
    | ok v =>
      cases hxs : JSON.toIfaceMembers ms with
      | error e' =>
        simp only [hx, hxs, Except.error.injEq] at h
        subst h
        exact toIfaceMembers_error ms e' hxs
      | ok vs => simp [hx, hxs] at h
end

mutual
theorem decodeValue_error : ∀ (j : JSON) (t : GoType) (cur : GoValue) (e : GoError),
    decodeValue t cur j = .error e → e = .unmarshalTypeError
  | .null, t, cur, e, h => by
    cases t <;> simp [decodeValue, JSON.toIface] at h
  | .bool _, t, cur, e, h => by
    cases t <;> simp [decodeValue, JSON.toIface] at h <;> exact h.symm
  | .num n, t, cur, e, h => by
    cases t with
    | iface => exact toIface_error _ e (by simpa [decodeValue] using h)
    | int =>
      simp only [decodeValue] at h
      cases hn : n.toInt64 with
      | none => simp only [hn, Except.error.injEq] at h; exact h.symm
      | some v => simp [hn] at h
    | string => simp [decodeValue] at h; exact h.symm
    | bool => simp [decodeValue] at h; exact h.symm
    | slice _ => simp [decodeValue] at h; exact h.symm
    | struct _ => simp [decodeValue] at h; exact h.symm
    | ptr _ => simp [decodeValue] at h; exact h.symm
  | .str _, t, cur, e, h => by
    cases t <;> simp [decodeValue, JSON.toIface] at h <;> exact h.symm
  | .arr xs, t, cur, e, h => by
    cases t with
    | iface => exact toIface_error _ e (by simpa [decodeValue] using h)
    | slice el =>
      simp only [decodeValue] at h
      cases hx : decodeElems el cur.elems xs with
      | error e' =>
        simp only [hx, Except.error.injEq] at h
        subst h
        exact decodeElems_error xs el _ e' hx
      | ok vs => simp [hx] at h
    | string => simp [decodeValue] at h; exact h.symm
    | bool => simp [decodeValue] at h; exact h.symm
    | int => simp [decodeValue] at h; exact h.symm
    | struct _ => simp [decodeValue] at h; exact h.symm
    | ptr _ => simp [decodeValue] at h; exact h.symm
  | .obj ms, t, cur, e, h => by
    cases t with
    | iface => exact toIface_error _ e (by simpa [decodeValue] using h)
    | struct fs =>
      simp only [decodeValue] at h
      cases hx : decodeMembers fs cur.fieldValues ms with
      | error e' =>
        simp only [hx, Except.error.injEq] at h
        subst h
        exact decodeMembers_error ms fs _ e' hx
      | ok vs => simp [hx] at h
    | ptr fs =>
      simp only [decodeValue] at h
      split at h
      · rename_i err hx
        obtain rfl := Except.error.inj h
        exact decodeMembers_error ms fs _ _ hx
      · exact Except.noConfusion h
    | string => simp [decodeValue] at h; exact h.symm
    | bool => simp [decodeValue] at h; exact h.symm
    | int => simp [decodeValue] at h; exact h.symm
    | slice _ => simp [decodeValue] at h; exact h.symm
theorem decodeElems_error : ∀ (xs : List JSON) (t : GoType) (cur : List GoValue) (e : GoError),
    decodeElems t cur xs = .error e → e = .unmarshalTypeError
  | [], t, cur, e, h => by simp [decodeElems] at h
  | x :: xs, t, cur, e, h => by
    simp only [decodeElems] at h
    cases hx : decodeValue t (cur.headD (GoType.zero t)) x with
    | error e' =>
      simp only [hx, Except.error.injEq] at h
      subst h
      exact decodeValue_error x t _ e' hx
    | ok v =>
      cases hxs : decodeElems t cur.tail xs with
      | error e' =>
        simp only [hx, hxs, Except.error.injEq] at h
        subst h
        exact decodeElems_error xs t _ e' hxs
      | ok vs =>
        simp only [hx, hxs] at h
        exact Except.noConfusion h
theorem decodeMembers_error : ∀ (ms : List (String × JSON)) (fs : List (String × GoType))
    (cur : List GoValue) (e : GoError),
    decodeMembers fs cur ms = .error e → e = .unmarshalTypeError
  | [], fs, cur, e, h => by simp [decodeMembers] at h
  | (k, x) :: ms, fs, cur, e, h => by
    simp only [decodeMembers] at h
    cases hf : findField fs k with
    | none =>
      simp only [hf] at h
      exact decodeMembers_error ms fs cur e h
    | some r =>
      obtain ⟨i, t⟩ := r
      simp only [hf] at h
      cases hx : decodeValue t (cur.getD i .nil) x with
      | error e' =>
        simp only [hx, Except.error.injEq] at h
        subst h
        exact decodeValue_error x t _ e' hx
      | ok v =>
        simp only [hx] at h
        exact decodeMembers_error ms fs _ e h
end

theorem findField_of_fold (fs : List (String × GoType))
    (hfs : (fs.map (fun f => foldName f.1)).Nodup) {i : Nat} {name k : String} {t : GoType}
    (hi : fs[i]? = some (name, t)) (h : foldName name = foldName k) :
    findField fs k = some (i, t) := by
  cases hff : findField fs k with
  | none => exact absurd h (findField_none hff (name, t) (List.getElem?_mem hi))
  | some r =>
    obtain ⟨i', t'⟩ := r
    obtain ⟨name', h0, hfold⟩ := findField_some hff
    have e : i' = i := index_eq_of_fold_eq hfs h0 hi (by simp [hfold, h])
    subst e
    rw [h0] at hi
    simp only [Option.some.injEq, Prod.mk.injEq] at hi
    rw [hi.2]

theorem member_some_mem {ms : List (String × JSON)} {name : String} {j : JSON}
    (h : member ms name = some j) : ∃ k, (k, j) ∈ ms ∧ foldName k = foldName name := by
  unfold member at h
  cases hf : ms.find? (fun m => foldName m.1 == foldName name) with
  | none => simp [hf] at h
  | some m =>
    simp only [hf, Option.some.injEq] at h
    subst h
    refine ⟨m.1, List.mem_of_find?_eq_some hf, ?_⟩
    have := List.find?_some hf
    simpa using this

/-- A member that names a field and holds a value the decoder refuses, whatever
the field holds, makes the decoding of the whole object fail. -/
theorem decodeMembers_fails (fs : List (String × GoType)) (k : String) (x : JSON) (i : Nat)
    (t : GoType) (hf : findField fs k = some (i, t))
    (hx : ∀ c, isOk (decodeValue t c x) = false) :
    ∀ (ms : List (String × JSON)) (cur : List GoValue), (k, x) ∈ ms →
      isOk (decodeMembers fs cur ms) = false := by
  intro ms
  induction ms with
  | nil => intro cur h; simp at h
  | cons m ms ih =>
    obtain ⟨k', x'⟩ := m
    intro cur hmem
    rcases List.mem_cons.mp hmem with e | hmem'
    · obtain ⟨rfl, rfl⟩ := Prod.mk.inj e
      have hc := hx (cur.getD i .nil)
      simp only [decodeMembers, hf]
      cases hd : decodeValue t (cur.getD i .nil) x with
      | error e => rfl
      | ok v => rw [hd] at hc; exact Bool.noConfusion hc
    · simp only [decodeMembers]
      cases hff : findField fs k' with
      | none => exact ih cur hmem'
      | some r =>
        obtain ⟨i', t'⟩ := r
        simp only []
        cases hd : decodeValue t' (cur.getD i' .nil) x' with
        | error e => rfl
        | ok v => exact ih _ hmem'

theorem page_names_nodup : (Page.map (fun f => foldName f.1)).Nodup := by decide

theorem response_names_nodup (result : List (String × GoType)) :
    ((response result).map (fun f => foldName f.1)).Nodup := by
  simp only [response, List.map_cons, List.map_nil]
  decide

theorem content_decode_fails (xs : List JSON) (h : JSON.numbersInRangeList xs = false)
    (cur : GoValue) : isOk (decodeValue (.slice .iface) cur (.arr xs)) = false := by
  rw [decode_content_eq, ← h, ← isOk_toIfaceList]
  cases JSON.toIfaceList xs <;> rfl

/-- A response whose result object holds a content array with a number out of
the range of `float64` is refused as a whole, with an `UnmarshalTypeError`,
whatever its other members are. -/
theorem page_response_fails (client : Client) (c : Call) (data : String)
    (ms r : List (String × JSON)) (xs : List JSON)
    (hc : c.result = Page)
    (hbody : ∀ meth params, client.httpClient meth params = .ok data)
    (hparse : parseJSON data = some (.obj ms))
    (hres : member ms "result" = some (.obj r))
    (hcontent : member r "content" = some (.arr xs))
    (hrange : JSON.numbersInRangeList xs = false) :
    client.call c = (.nil, some .unmarshalTypeError) := by
  obtain ⟨kc, hkc, hfc⟩ := member_some_mem hcontent
  obtain ⟨kr, hkr, hfr⟩ := member_some_mem hres
  have h1 : findField Page kc = some (7, .slice .iface) :=
    findField_of_fold Page page_names_nodup (by rfl) hfc.symm
  have h2 : ∀ cur, isOk (decodeMembers Page cur r) = false := fun cur =>
    decodeMembers_fails Page kc (.arr xs) 7 (.slice .iface) h1
      (content_decode_fails xs hrange) r cur hkc
  have h3 : ∀ cur, isOk (decodeValue (.ptr Page) cur (.obj r)) = false := by
    intro cur
    simp only [decodeValue]
    split
    · rfl
    · rename_i vs hvs
      have := congrArg isOk hvs
      rw [h2] at this
      exact Bool.noConfusion this
  have h4 : findField (response Page) kr = some (2, .ptr Page) :=
    findField_of_fold (response Page) (response_names_nodup Page) (by rfl) hfr.symm
  have h5 := decodeMembers_fails (response Page) kr (.obj r) 2 (.ptr Page) h4 h3 ms
    (GoType.zero (.struct (response Page))).fieldValues hkr
  rw [call_eq_unwrap client c data hbody, hc]
  simp only [unwrap, Unmarshal, hparse, decodeValue]
  cases hd : decodeMembers (response Page)
      (GoType.zero (.struct (response Page))).fieldValues ms with
  | ok vs => rw [hd] at h5; exact Bool.noConfusion h5
  | error e =>
    have := decodeMembers_error _ _ _ _ hd
    subst this
    rfl

/-- A valid response with `ok` true whose result object holds a content array
gives a page whose `Content` field is the decoding of that array. -/
theorem page_response_content (client : Client) (c : Call) (data : String)
    (ms r : List (String × JSON)) (xs : List JSON) (cur : GoValue)
    (hc : c.result = Page)
    (hbody : ∀ meth params, client.httpClient meth params = .ok data)
    (hparse : parseJSON data = some (.obj ms))
    (hvalid : validEnvelope Page ms = true)
    (hok : member ms "ok" = some (.bool true))
    (hres : member ms "result" = some (.obj r))
    (hcontent : member r "content" = some (.arr xs)) :
    ∃ vs v, client.call c = (.ptr (.struct vs), none) ∧ vs[7]? = some v
      ∧ decodeValue (.slice .iface) cur (.arr xs) = .ok v := by
  obtain ⟨_, hrest⟩ := (validEnvelope_iff _ _).mp hvalid
  obtain ⟨payload, h, _, hsome⟩ := unwrap_envelope Page page_names_nodup data ms
    hparse hrest (Or.inr ⟨true, hok⟩)
  obtain ⟨vs, hvs, hdec⟩ := hsome r hres
  have hshape : payloadShape Page r = true := by
    simp only [envelopeRest, Bool.and_eq_true, hres] at hrest
    exact hrest.2
  obtain ⟨vs', hdec', _, hfields⟩ := decode_payload Page page_names_nodup r hshape
  rw [hdec] at hdec'
  obtain rfl := Except.ok.inj hdec'
  obtain ⟨v, hv, hd⟩ := (hfields 7 "content" (.slice .iface) (by rfl)).2 _ hcontent
  refine ⟨vs, v, ?_, hv, ?_⟩
  · rw [call_eq_unwrap client c data hbody, hc, h, hvs]
    simp [envelopeOK, hok]
  · rw [decode_content_eq] at hd ⊢
    exact hd

/-- C2, amended: decoding a content array into `[]Node` fails exactly when some
number literal in it is out of the range of `float64`, and then with an
`UnmarshalTypeError`; otherwise position `i` holds, for a string the same string,
for an object a `map[string]interface{}` (never a `NodeElement`), for a boolean
the `bool`, for `null` the nil interface, for a number a `float64`, for an array a
`[]interface{}` of the same length.  Inside a response: when the content array
of the result object holds a number out of range, `CreatePage`, `EditPage` and
`GetPage` return a nil payload and the `UnmarshalTypeError`, whatever the other
members are; and for a valid envelope with `ok` true they return the page whose
`Content` field is the decoding of the array. -/
theorem node_decode_shape (cur : GoValue) (xs : List JSON) :
    isOk (decodeValue (.slice .iface) cur (.arr xs)) = JSON.numbersInRangeList xs
    ∧ (JSON.numbersInRangeList xs = false →
        decodeValue (.slice .iface) cur (.arr xs) = .error .unmarshalTypeError)
    ∧ (∀ v, decodeValue (.slice .iface) cur (.arr xs) = .ok v →
        ∃ vs, v = .slice vs ∧ vs.length = xs.length
          ∧ ∀ (i : Nat) (j : JSON), xs[i]? = some j →
              ∃ w, vs[i]? = some w ∧ decodedKind j w
                ∧ (∀ ms, j = .obj ms → ∀ n : Node, w ≠ n.toGoValue))
    ∧ (∀ (client : Client) (c : Call) (data : String) (ms r : List (String × JSON)),
        c.result = Page →
        (∀ meth params, client.httpClient meth params = .ok data) →
        parseJSON data = some (.obj ms) →
        member ms "result" = some (.obj r) →
        member r "content" = some (.arr xs) →
        JSON.numbersInRangeList xs = false →
        client.call c = (.nil, some .unmarshalTypeError))
    ∧ (∀ (client : Client) (c : Call) (data : String) (ms r : List (String × JSON)),
        c.result = Page →
        (∀ meth params, client.httpClient meth params = .ok data) →
        parseJSON data = some (.obj ms) →
        validEnvelope Page ms = true →
        member ms "ok" = some (.bool true) →
        member ms "result" = some (.obj r) →
        member r "content" = some (.arr xs) →
        ∃ vs v, client.call c = (.ptr (.struct vs), none) ∧ vs[7]? = some v
          ∧ decodeValue (.slice .iface) cur (.arr xs) = .ok v) := by
  refine ⟨?_, ?_, ?_, ?_, ?_⟩
  · rw [decode_content_eq, ← isOk_toIfaceList]
    cases JSON.toIfaceList xs <;> rfl
  · intro h
    have hf := content_decode_fails xs h cur
    cases hd : decodeValue (.slice .iface) cur (.arr xs) with
    | ok v => rw [hd] at hf; exact Bool.noConfusion hf
    | error e => rw [decodeValue_error _ _ _ _ hd]
  · rw [decode_content_eq]
    intro v hv
    cases hxs : JSON.toIfaceList xs with
    | error e => simp [hxs] at hv
    | ok vs =>
      simp only [hxs, Except.ok.injEq] at hv
      obtain ⟨hl, hel⟩ := toIfaceList_ok xs vs hxs
      refine ⟨vs, hv.symm, hl, ?_⟩
      intro i j hi
      obtain ⟨w, hw, hj⟩ := hel i j hi
      refine ⟨w, hw, decodedKind_toIface j w hj, ?_⟩
      intro ms hms n
      subst hms
      obtain ⟨kvs, hk⟩ := decodedKind_toIface _ w hj
      rw [hk]
      exact fun e => toGoValue_ne_map n kvs e.symm
  · intro client c data ms r hc hbody hparse hres hcontent hrange
    exact page_response_fails client c data ms r xs hc hbody hparse hres hcontent hrange
  · intro client c data ms r hc hbody hparse hvalid hok hres hcontent
    exact page_response_content client c data ms r xs cur hc hbody hparse hvalid hok hres
      hcontent

/-- C2, witness: `GetPage` on a response whose content array holds a string and
the number `1e310` returns a nil payload and the `UnmarshalTypeError`. -/
theorem node_decode_shape_witness :
    (Client.mk "" (fun _ _ => .ok
        "\x7b\"ok\":true,\"result\":\x7b\"content\":[\"a\",1000000000000000000000000000000000000000000000000000000000000e250]\x7d\x7d")).GetPage "p" none
      = (.nil, some .unmarshalTypeError) :=
  (node_decode_shape .nil [.str "a", .num ⟨false, 1000000000000000000000000000000000000000000000000000000000000, [], some 250⟩]).2.2.2.1
    (Client.mk "" (fun _ _ => .ok
        "\x7b\"ok\":true,\"result\":\x7b\"content\":[\"a\",1000000000000000000000000000000000000000000000000000000000000e250]\x7d\x7d"))
    (.GetPage "p" none) _
    [("ok", .bool true),
     ("result", .obj [("content", .arr [.str "a",
        .num ⟨false, 1000000000000000000000000000000000000000000000000000000000000, [], some 250⟩])])]
    [("content", .arr [.str "a", .num ⟨false, 1000000000000000000000000000000000000000000000000000000000000, [], some 250⟩])]
    rfl (fun _ _ => rfl) rfl rfl rfl (by decide)

end Telegraph
